import Mathlib

/-!
Formal model of `music_data_utils.py`.

The module converts lists of timed note events into textual tokens
(`ON=...;OFF=...;DUR=...`) and decodes token lists back into note intervals.
Times and durations are modelled as rationals (the specification's
"rational-time"), Python strings as `List Char`, Python sets as `Finset ℤ`,
and Python's `round` as round-half-to-even on exact rationals.
-/

/-- Python's `round(q)` on an exact rational value: round half to even. -/
def pyRound (q : ℚ) : ℤ :=
  let f := ⌊q⌋
  let r := q - (f : ℚ)
  if r < 1/2 then f
  else if 1/2 < r then f + 1
  else if f % 2 = 0 then f else f + 1

/-- Python's `round(q, 3)`: round half to even at three decimal digits. -/
def round3 (q : ℚ) : ℚ := (pyRound (q * 1000) : ℚ) / 1000

/-- Model of `snap_to_grid` (music_data_utils.py lines 21-57): hybrid
quantization of a duration against a binary grid (1/8) and a ternary grid
(1/12), with a 0.04 noise threshold. -/
def snap_to_grid (duration : ℚ) : ℚ :=
  let grid_binary : ℚ := 1/8
  let steps_bin := pyRound (duration / grid_binary)
  let snapped_bin := (steps_bin : ℚ) * grid_binary
  let error_bin := |duration - snapped_bin|
  let grid_ternary : ℚ := 1/12
  let steps_ter := pyRound (duration / grid_ternary)
  let snapped_ter := (steps_ter : ℚ) * grid_ternary
  let error_ter := |duration - snapped_ter|
  if duration < 4/100 then 0
  else if error_bin ≤ error_ter then round3 snapped_bin
  else round3 snapped_ter

/-- The binary-grid snap `round(d / 0.125) * 0.125` named on its own, for
stating the quantizer contract. -/
def snappedBin (d : ℚ) : ℚ := (pyRound (d / (1/8)) : ℚ) * (1/8)

/-- The ternary-grid snap `round(d / (1/12)) * (1/12)` named on its own, for
stating the quantizer contract. -/
def snappedTer (d : ℚ) : ℚ := (pyRound (d / (1/12)) : ℚ) * (1/12)

/-- One raw event extracted from a score: `(offset, duration, pitches)`. -/
structure RawEvent where
  offset : ℚ
  duration : ℚ
  pitches : List ℤ

/-- One structured token `ON=...;OFF=...;DUR=...` before text serialization.
The ON and OFF fields are Python sets of pitches, DUR a quantized duration. -/
structure Token where
  onSet : Finset ℤ
  offSet : Finset ℤ
  dur : ℚ
deriving DecidableEq

/-- Transposition and MIDI-range filtering of one event's pitch list
(music_data_utils.py lines 136-141). -/
def validPitches (transpose_semitones : ℤ) (pitches : List ℤ) : List ℤ :=
  (pitches.map (fun p => p + transpose_semitones)).filter (fun p => decide (0 ≤ p ∧ p ≤ 127))

/-- Pitches registered in `start_map` at time `t` (with multiplicity, in event
order), music_data_utils.py line 146. -/
def startList (raw_events : List RawEvent) (tr : ℤ) (t : ℚ) : List ℤ :=
  raw_events.flatMap (fun e => if e.offset = t then validPitches tr e.pitches else [])

/-- Pitches registered in `end_map` at time `t` (with multiplicity),
music_data_utils.py line 147. -/
def endList (raw_events : List RawEvent) (tr : ℤ) (t : ℚ) : List ℤ :=
  raw_events.flatMap (fun e => if e.offset + e.duration = t then validPitches tr e.pitches else [])

/-- All keys appearing in `start_map` or `end_map` (with repetitions): the raw
material of `set(start_map.keys()) | set(end_map.keys())`. A key exists only
when a valid pitch was appended under it. -/
def eventTimes (raw_events : List RawEvent) (tr : ℤ) : List ℚ :=
  raw_events.flatMap (fun e =>
    if validPitches tr e.pitches = [] then [] else [e.offset, e.offset + e.duration])

/-- Ordered duplicate-free insertion, used to model `sorted(list(set(...)))`. -/
def insertTime (x : ℚ) : List ℚ → List ℚ
  | [] => [x]
  | y :: ys => if x < y then x :: y :: ys else if x = y then y :: ys else y :: insertTime x ys

/-- The sorted distinct time points `all_times` (music_data_utils.py line 150). -/
def allTimes (raw_events : List RawEvent) (tr : ℤ) : List ℚ :=
  (eventTimes raw_events tr).foldr insertTime []

/-- Step A of the sweep (lines 164-169): decrement the active-voice counter for
each pitch ending at the current time; a pitch whose counter reaches exactly 0
moves into `pending_off`. Returns the updated counter map and pending set. -/
def procOffs : List ℤ → (ℤ → ℤ) → Finset ℤ → (ℤ → ℤ) × Finset ℤ
  | [], count, pend => (count, pend)
  | p :: ps, count, pend =>
    let c := count p - 1
    procOffs ps (fun q => if q = p then c else count q) (if c = 0 then insert p pend else pend)

/-- Step B of the sweep (lines 171-175): increment the counter for each pitch
starting at the current time and add it to `pending_on`. -/
def procOns : List ℤ → (ℤ → ℤ) → Finset ℤ → (ℤ → ℤ) × Finset ℤ
  | [], count, pend => (count, pend)
  | p :: ps, count, pend =>
    procOns ps (fun q => if q = p then count p + 1 else count q) (insert p pend)

/-- The main tokenization sweep (music_data_utils.py lines 163-211) over the
remaining time points, carrying the per-pitch counter, the last emission time
and the two pending sets. ON wins over OFF at the same instant (the
`intersection` cleanup); a token is emitted when the quantized delta to the
next time point is positive, or at the last time point when a pending set is
non-empty, the last token having a forced-empty ON and DUR 0. -/
def encodeLoop (sm em : ℚ → List ℤ) :
    List ℚ → (ℤ → ℤ) → ℚ → Finset ℤ → Finset ℤ → List Token
  | [], _, _, _, _ => []
  | t :: rest, count, prev_time, pending_on, pending_off =>
    let stepOff := procOffs (em t) count pending_off
    let stepOn := procOns (sm t) stepOff.1 pending_on
    let pOn := stepOn.2
    let pOff := stepOff.2 \ pOn
    match rest with
    | [] => if pOn = ∅ ∧ pOff = ∅ then [] else [⟨∅, pOff, 0⟩]
    | next_t :: _ =>
      let dur := snap_to_grid (next_t - prev_time)
      if 0 < dur then
        ⟨pOn, pOff, dur⟩ :: encodeLoop sm em rest stepOn.1 next_t ∅ ∅
      else
        encodeLoop sm em rest stepOn.1 prev_time pOn pOff

/-- Model of `_generate_tokens_from_events` (music_data_utils.py lines
112-211), producing structured tokens; serialization to text is applied
separately. -/
def _generate_tokens_from_events (raw_events : List RawEvent) (transpose_semitones : ℤ) :
    List Token :=
  match allTimes raw_events transpose_semitones with
  | [] => []
  | t0 :: rest =>
    encodeLoop (startList raw_events transpose_semitones) (endList raw_events transpose_semitones)
      (t0 :: rest) (fun _ => 0) t0 ∅ ∅

/-- Signed, per-pitch occurrence count over a list of time points, used to
state the active-voice counter invariant of the sweep. -/
def countSum (g : ℚ → List ℤ) (ts : List ℚ) (p : ℤ) : ℤ :=
  (ts.map (fun t => ((g t).count p : ℤ))).sum

/-- Stable sorted insertion of an integer (placed before equal elements). -/
def insertSortedInt (x : ℤ) : List ℤ → List ℤ
  | [] => [x]
  | y :: ys => if x ≤ y then x :: y :: ys else y :: insertSortedInt x ys

/-- Sorting as performed inside Python's `statistics.median`. -/
def sortInts : List ℤ → List ℤ
  | [] => []
  | x :: xs => insertSortedInt x (sortInts xs)

/-- Python's `statistics.median` on integer data: the middle element of the
sorted data for odd length, the exact average of the two middle elements for
even length. -/
def pyMedian (l : List ℤ) : ℚ :=
  let s := sortInts l
  let n := l.length
  if n % 2 = 1 then ((s.getD (n / 2) 0 : ℤ) : ℚ)
  else (((s.getD (n / 2 - 1) 0 : ℤ) : ℚ) + ((s.getD (n / 2) 0 : ℤ) : ℚ)) / 2

/-- Python's `int()` on a rational: truncation toward zero. -/
def pyTrunc (q : ℚ) : ℤ := if q < 0 then -⌊-q⌋ else ⌊q⌋

/-- Model of `_get_pitch_median` (music_data_utils.py lines 91-109): flatten
all pitches, return 60 on empty data, else `int(statistics.median(...))`. -/
def _get_pitch_median (raw_events : List RawEvent) : ℤ :=
  let all_pitches := raw_events.flatMap (fun e => e.pitches)
  if all_pitches = [] then 60 else pyTrunc (pyMedian all_pitches)

/-- Python's `range(lo, hi)` over integers, as a list. -/
def intRange (lo hi : ℤ) : List ℤ :=
  (List.range (hi - lo).toNat).map (fun i : ℕ => lo + (i : ℤ))

/-- The transposition window of the augmentation path (music_data_utils.py
lines 266-274): `shift = max(-6, min(5, 60 - median))`, then
`range(shift - 5, shift + 7)`. -/
def augmentShifts (raw_events : List RawEvent) : List ℤ :=
  let median_pitch := _get_pitch_median raw_events
  let shift_ideal := 60 - median_pitch
  let shift := max (-6) (min 5 shift_ideal)
  intRange (shift - 5) (shift + 7)

/-- The augment=True branch of `parse_midi_to_tokens` (lines 262-281): one
encoder run per window member, keeping only runs that produced tokens. -/
def parse_midi_to_tokens_augmented (raw_events : List RawEvent) : List (List Token) :=
  (augmentShifts raw_events).filterMap (fun s =>
    let tokens := _generate_tokens_from_events raw_events s
    if tokens = [] then none else some tokens)

/-- Decimal digit character for a value below ten. -/
def digitChar (d : ℕ) : Char := Char.ofNat (48 + d)

/-- Decimal digits of a natural number, most significant first. -/
def natDigits (n : ℕ) : List Char :=
  if n < 10 then [digitChar n]
  else natDigits (n / 10) ++ [digitChar (n % 10)]
termination_by n
decreasing_by exact Nat.div_lt_self (by omega) (by omega)

/-- Python `str` applied to an integer. -/
def intChars (p : ℤ) : List Char :=
  if p < 0 then '-' :: natDigits (-p).toNat else natDigits p.toNat

/-- Numeric value of a decimal digit character. -/
def digitVal (c : Char) : Option ℕ :=
  if '0' ≤ c ∧ c ≤ '9' then some (c.toNat - 48) else none

def parseDigitsAux (acc : ℕ) : List Char → Option ℕ
  | [] => some acc
  | c :: rest =>
    match digitVal c with
    | some d => parseDigitsAux (acc * 10 + d) rest
    | none => none

/-- Parse a non-empty all-digit string. -/
def parseDigits (s : List Char) : Option ℕ :=
  if s = [] then none else parseDigitsAux 0 s

/-- Python `int(s)` on a plain decimal string: optional sign, then digits;
anything else raises (modelled as `none`). -/
def pyInt (s : List Char) : Option ℤ :=
  match s with
  | [] => none
  | c :: rest =>
    if c = '-' then (parseDigits rest).map (fun n => -(n : ℤ))
    else if c = '+' then (parseDigits rest).map (fun n => (n : ℤ))
    else (parseDigits (c :: rest)).map (fun n => (n : ℤ))

/-- Python `s.split(sep)` on character lists. -/
def splitSep (sep : Char) : List Char → List (List Char)
  | [] => [[]]
  | c :: rest =>
    if c = sep then [] :: splitSep sep rest
    else
      match splitSep sep rest with
      | [] => [[c]]
      | h :: t => (c :: h) :: t

/-- Python `float(s)` on an unsigned plain decimal string (the only shape the
encoder emits): digits with an optional single point and fractional digits. -/
def pyFloatCore (s : List Char) : Option ℚ :=
  match splitSep '.' s with
  | [a] => (parseDigits a).map (fun n => (n : ℚ))
  | [a, b] =>
    match parseDigits a, parseDigits b with
    | some n, some f => some ((n : ℚ) + (f : ℚ) / 10 ^ b.length)
    | _, _ => none
  | _ => none

/-- Python `float(s)` with an optional sign. -/
def pyFloat (s : List Char) : Option ℚ :=
  match s with
  | [] => none
  | c :: rest =>
    if c = '-' then (pyFloatCore rest).map (fun q => -q)
    else if c = '+' then pyFloatCore rest
    else pyFloatCore (c :: rest)

/-- Three-digit zero-padded decimal representation of `k < 1000`. -/
def pad3 (k : ℕ) : List Char :=
  (if k < 10 then ['0', '0'] else if k < 100 then ['0'] else []) ++ natDigits k

/-- Python's fixed-point formatting `{q:.3f}`. -/
def fmt3 (q : ℚ) : List Char :=
  let m := pyRound (q * 1000)
  if m < 0 then '-' :: (natDigits ((-m).toNat / 1000) ++ '.' :: pad3 ((-m).toNat % 1000))
  else natDigits (m.toNat / 1000) ++ '.' :: pad3 (m.toNat % 1000)

/-- Serialization of a pitch set: ascending order, comma separated, `_` when
empty (music_data_utils.py lines 197-201). -/
def serPitches (s : Finset ℤ) : List Char :=
  if s = ∅ then ['_']
  else List.intercalate [','] ((s.sort (· ≤ ·)).map intChars)

/-- Serialization of one token, `f"ON={on};OFF={off};DUR={dur:.3f}"`
(music_data_utils.py line 203). -/
def tokenChars (tok : Token) : List Char :=
  'O' :: 'N' :: '=' ::
    (serPitches tok.onSet ++ ';' :: 'O' :: 'F' :: 'F' :: '=' ::
      (serPitches tok.offSet ++ ';' :: 'D' :: 'U' :: 'R' :: '=' :: fmt3 tok.dur))

/-- Decoder state: running clock, per-pitch open timestamps in first-touch
order (Python's defaultdict preserves insertion order), accumulated closed
notes `(pitch, start, duration)`. -/
structure DecState where
  time : ℚ
  noteState : List (ℤ × Option ℚ)
  notes : List (ℤ × ℚ × ℚ)

/-- Lookup `note_state[pitch]['start']`; an untouched pitch reads as `None`. -/
def getStart (ns : List (ℤ × Option ℚ)) (p : ℤ) : Option ℚ :=
  match ns.find? (fun e => e.1 == p) with
  | some e => e.2
  | none => none

/-- Write `note_state[pitch]['start'] = v`, inserting the key on first touch
as Python's defaultdict does. -/
def setStart (ns : List (ℤ × Option ℚ)) (p : ℤ) (v : Option ℚ) : List (ℤ × Option ℚ) :=
  if ns.any (fun e => e.1 == p) then
    ns.map (fun e => if e.1 == p then (p, v) else e)
  else ns ++ [(p, v)]

/-- OFF handling for one pitch (music_data_utils.py lines 316-323): close an
open note if the elapsed raw duration is positive (clamped to 8.0), then mark
the pitch off. -/
def applyOff (st : DecState) (pitch : ℤ) : DecState :=
  let notes2 :=
    match getStart st.noteState pitch with
    | some start =>
      if 0 < st.time - start then
        st.notes ++ [(pitch, start, min (st.time - start) 8)]
      else st.notes
    | none => st.notes
  ⟨st.time, setStart st.noteState pitch none, notes2⟩

/-- ON handling for one pitch (lines 328-335): a still-open previous instance
is closed first (re-attack), then the pitch opens at the current clock. -/
def applyOn (st : DecState) (pitch : ℤ) : DecState :=
  let notes2 :=
    match getStart st.noteState pitch with
    | some start =>
      if 0 < st.time - start then
        st.notes ++ [(pitch, start, min (st.time - start) 8)]
      else st.notes
    | none => st.notes
  ⟨st.time, setStart st.noteState pitch (some st.time), notes2⟩

/-- Extraction `part.split('=')[1]` of one field; fails (IndexError) when the
part holds no `=`. -/
def fieldVal (part : List Char) : Option (List Char) :=
  match splitSep '=' part with
  | _ :: v :: _ => some v
  | _ => none

/-- The values of `parts[0..2]` after `token.split(';')`; `none` models the
IndexError raised on fewer than three parts or a part without `=`. -/
def tokenFields (tok : List Char) : Option (List Char × List Char × List Char) :=
  match splitSep ';' tok with
  | p0 :: p1 :: p2 :: _ =>
    match fieldVal p0, fieldVal p1, fieldVal p2 with
    | some a, some b, some c => some (a, b, c)
    | _, _, _ => none
  | _ => none

/-- All-or-nothing integer parsing of the split pitch list, modelling the list
comprehension `[int(x) for x in part.split(',')]`. -/
def parseIntList : List (List Char) → Option (List ℤ)
  | [] => some []
  | s :: rest =>
    match pyInt s, parseIntList rest with
    | some n, some ns => some (n :: ns)
    | _, _ => none

def parsePitchList (s : List Char) : Option (List ℤ) := parseIntList (splitSep ',' s)

/-- The ON half of the token body followed by the clock advance: skipped for
the `_` sentinel; a parse failure abandons the token after the OFF half
already ran, leaving the clock unchanged. -/
def applyOnPhase (st : DecState) (onStr : List Char) (dur : ℚ) : DecState :=
  if onStr = ['_'] then ⟨st.time + dur, st.noteState, st.notes⟩
  else
    match parsePitchList onStr with
    | none => st
    | some ons =>
      let st2 := ons.foldl applyOn st
      ⟨st2.time + dur, st2.noteState, st2.notes⟩

/-- One decoding step for one token (the `try` body, music_data_utils.py lines
307-337): fields and DUR parse first, then OFFs are applied, then ONs, then
the clock advances; an exception leaves the state as already mutated up to the
failure point and does not advance the clock. -/
def decodeStep (st : DecState) (tok : List Char) : DecState :=
  match tokenFields tok with
  | none => st
  | some (onStr, offStr, durStr) =>
    match pyFloat durStr with
    | none => st
    | some dur =>
      if offStr = ['_'] then applyOnPhase st onStr dur
      else
        match parsePitchList offStr with
        | none => st
        | some offs => applyOnPhase (offs.foldl applyOff st) onStr dur

/-- Final flush of pitches still open after the last token (lines 342-348):
each contributes a note only if its clamped duration is positive. -/
def flushNotes (st : DecState) : List (ℤ × ℚ × ℚ) :=
  st.noteState.filterMap (fun e =>
    match e.2 with
    | some start =>
      if 0 < min (st.time - start) 8 then some (e.1, start, min (st.time - start) 8)
      else none
    | none => none)

/-- Insertion before the first element of equal or larger start time; used to
realize the stable sort below (an element is placed before later-listed
elements with the same key). -/
def insertByStart (x : ℤ × ℚ × ℚ) : List (ℤ × ℚ × ℚ) → List (ℤ × ℚ × ℚ)
  | [] => [x]
  | y :: ys => if x.2.1 ≤ y.2.1 then x :: y :: ys else y :: insertByStart x ys

/-- Stable sort by start time, modelling `collected_notes.sort(key=lambda x: x[1])`. -/
def sortByStart : List (ℤ × ℚ × ℚ) → List (ℤ × ℚ × ℚ)
  | [] => []
  | x :: xs => insertByStart x (sortByStart xs)

/-- Model of `tokens_to_midi` (music_data_utils.py lines 284-352) up to the
note list handed to the score writer: fold the decoder over the tokens from a
fresh state, flush still-open pitches, sort stably by start. -/
def tokens_to_midi (tokens : List (List Char)) : List (ℤ × ℚ × ℚ) :=
  let final := tokens.foldl decodeStep ⟨0, [], []⟩
  sortByStart (final.notes ++ flushNotes final)

/-- Full parse of one token, succeeding exactly when the decode step of
`tokens_to_midi` raises no exception: field structure, DUR float, OFF pitch
list, ON pitch list (the `_` sentinel parsing as the empty list). -/
def parseToken (tok : List Char) : Option (List ℤ × List ℤ × ℚ) :=
  match tokenFields tok with
  | none => none
  | some (onStr, offStr, durStr) =>
    match pyFloat durStr with
    | none => none
    | some dur =>
      match (if offStr = ['_'] then some [] else parsePitchList offStr) with
      | none => none
      | some offs =>
        match (if onStr = ['_'] then some [] else parsePitchList onStr) with
        | none => none
        | some ons => some (ons, offs, dur)

theorem pyRound_eq_floor_or_ceil (q : ℚ) : pyRound q = ⌊q⌋ ∨ pyRound q = ⌊q⌋ + 1 := by
  unfold pyRound
  dsimp only
  split_ifs <;> simp

theorem pyRound_nonneg {q : ℚ} (h : 0 ≤ q) : 0 ≤ pyRound q := by
  have hf : (0 : ℤ) ≤ ⌊q⌋ := Int.floor_nonneg.mpr h
  rcases pyRound_eq_floor_or_ceil q with h1 | h1 <;> omega

theorem round3_nonneg {q : ℚ} (h : 0 ≤ q) : 0 ≤ round3 q := by
  have : 0 ≤ pyRound (q * 1000) := pyRound_nonneg (by positivity)
  unfold round3
  positivity

theorem pyRound_intCast (n : ℤ) : pyRound (n : ℚ) = n := by
  unfold pyRound
  rw [Int.floor_intCast]
  norm_num

theorem round3_int_mul_eighth (k : ℤ) : round3 ((k : ℚ) * (1/8)) = (k : ℚ) * (1/8) := by
  have h : (k : ℚ) * (1/8) * 1000 = ((125 * k : ℤ) : ℚ) := by push_cast; ring
  rw [round3, h, pyRound_intCast]
  push_cast
  ring

/-- Claim C4. Quantizer contract: `snap_to_grid d` returns 0 when `d < 0.04`;
otherwise it returns whichever of the binary and ternary snaps has the smaller
absolute error (binary on ties), rounded to three decimals; the result is
always nonnegative and is either an exact multiple of 1/8 or a multiple of
1/12 rounded to three decimals (0 being the zero multiple). -/
theorem snap_to_grid_contract (d : ℚ) :
    (d < 4/100 → snap_to_grid d = 0) ∧
    (¬ d < 4/100 → snap_to_grid d =
      (if |d - snappedBin d| ≤ |d - snappedTer d| then round3 (snappedBin d)
       else round3 (snappedTer d))) ∧
    0 ≤ snap_to_grid d ∧
    (∃ k : ℤ, snap_to_grid d = (k : ℚ) * (1/8) ∨ snap_to_grid d = round3 ((k : ℚ) * (1/12))) := by
  refine ⟨fun h => by simp only [snap_to_grid, if_pos h], fun h => by
    simp only [snap_to_grid, snappedBin, snappedTer, if_neg h], ?_, ?_⟩
  · by_cases h : d < 4/100
    · simp only [snap_to_grid, if_pos h]; norm_num
    · have hd : 0 ≤ d := le_trans (by norm_num) (not_lt.mp h)
      simp only [snap_to_grid, if_neg h]
      split_ifs
      · exact round3_nonneg (by
          have := pyRound_nonneg (q := d / (1/8)) (by positivity)
          positivity)
      · exact round3_nonneg (by
          have := pyRound_nonneg (q := d / (1/12)) (by positivity)
          positivity)
  · by_cases h : d < 4/100
    · exact ⟨0, Or.inl (by simp only [snap_to_grid, if_pos h]; norm_num)⟩
    · simp only [snap_to_grid, if_neg h]
      split_ifs
      · exact ⟨pyRound (d / (1/8)), Or.inl (round3_int_mul_eighth _)⟩
      · exact ⟨pyRound (d / (1/12)), Or.inr rfl⟩

/-- Concrete instantiation of the quantizer contract: 0.02 is below the noise
threshold and snaps to 0, and the result at 1 is nonnegative. -/
theorem snap_to_grid_contract_witness :
    ((1 : ℚ)/50 < 4/100 ∧ snap_to_grid (1/50) = 0) ∧ 0 ≤ snap_to_grid 1 :=
  ⟨⟨by norm_num, (snap_to_grid_contract (1/50)).1 (by norm_num)⟩,
    (snap_to_grid_contract 1).2.2.1⟩

theorem encodeLoop_last (sm em : ℚ → List ℤ) (t : ℚ) (count : ℤ → ℤ) (prev : ℚ)
    (pOn pOff : Finset ℤ) :
    encodeLoop sm em [t] count prev pOn pOff =
      (if (procOns (sm t) (procOffs (em t) count pOff).1 pOn).2 = ∅ ∧
          (procOffs (em t) count pOff).2 \ (procOns (sm t) (procOffs (em t) count pOff).1 pOn).2
            = ∅
       then []
       else [⟨∅,
         (procOffs (em t) count pOff).2 \ (procOns (sm t) (procOffs (em t) count pOff).1 pOn).2,
         0⟩]) := rfl

theorem encodeLoop_cons (sm em : ℚ → List ℤ) (t nt : ℚ) (rest2 : List ℚ) (count : ℤ → ℤ)
    (prev : ℚ) (pOn pOff : Finset ℤ) :
    encodeLoop sm em (t :: nt :: rest2) count prev pOn pOff =
      (if 0 < snap_to_grid (nt - prev) then
        (⟨(procOns (sm t) (procOffs (em t) count pOff).1 pOn).2,
          (procOffs (em t) count pOff).2 \ (procOns (sm t) (procOffs (em t) count pOff).1 pOn).2,
          snap_to_grid (nt - prev)⟩ : Token) ::
          encodeLoop sm em (nt :: rest2) (procOns (sm t) (procOffs (em t) count pOff).1 pOn).1
            nt ∅ ∅
      else
        encodeLoop sm em (nt :: rest2) (procOns (sm t) (procOffs (em t) count pOff).1 pOn).1
          prev (procOns (sm t) (procOffs (em t) count pOff).1 pOn).2
          ((procOffs (em t) count pOff).2 \
            (procOns (sm t) (procOffs (em t) count pOff).1 pOn).2)) := rfl

theorem encodeLoop_disjoint (sm em : ℚ → List ℤ) (ts : List ℚ) (count : ℤ → ℤ) (prev : ℚ)
    (pOn pOff : Finset ℤ) (tok : Token)
    (h : tok ∈ encodeLoop sm em ts count prev pOn pOff) : tok.onSet ∩ tok.offSet = ∅ := by
  induction ts generalizing count prev pOn pOff with
  | nil => simp [encodeLoop] at h
  | cons t rest IH =>
    cases rest with
    | nil =>
      rw [encodeLoop_last] at h
      split_ifs at h
      · simp at h
      · simp only [List.mem_singleton] at h
        subst h
        simp
    | cons nt rest2 =>
      rw [encodeLoop_cons] at h
      split_ifs at h with hd
      · rcases List.mem_cons.mp h with h1 | h1
        · subst h1
          exact Finset.inter_sdiff_self _ _
        · exact IH _ _ _ _ h1
      · exact IH _ _ _ _ h

theorem mem_insertTime (x a : ℚ) (l : List ℚ) : a ∈ insertTime x l ↔ a = x ∨ a ∈ l := by
  induction l with
  | nil => simp [insertTime]
  | cons y ys ih =>
    simp only [insertTime]
    split_ifs with h1 h2
    · simp [List.mem_cons]
    · subst h2
      simp [List.mem_cons]
    · simp only [List.mem_cons, ih]
      tauto

theorem sorted_insertTime (x : ℚ) (l : List ℚ) (h : l.Sorted (· < ·)) :
    (insertTime x l).Sorted (· < ·) := by
  induction l with
  | nil => simp [insertTime]
  | cons y ys ih =>
    obtain ⟨hy, hys⟩ := List.sorted_cons.mp h
    simp only [insertTime]
    split_ifs with h1 h2
    · exact List.sorted_cons.mpr ⟨fun b hb => by
        rcases List.mem_cons.mp hb with rfl | hb
        · exact h1
        · exact lt_trans h1 (hy b hb), h⟩
    · exact h
    · have hyx : y < x := lt_of_le_of_ne (not_lt.mp h1) (fun he => h2 he.symm)
      exact List.sorted_cons.mpr ⟨fun b hb => by
        rcases (mem_insertTime x b ys).mp hb with rfl | hb
        · exact hyx
        · exact hy b hb, ih hys⟩

theorem allTimes_sorted (raw_events : List RawEvent) (tr : ℤ) :
    (allTimes raw_events tr).Sorted (· < ·) := by
  unfold allTimes
  induction eventTimes raw_events tr with
  | nil => simp
  | cons t ts ih => exact sorted_insertTime t _ ih

theorem allTimes_nodup (raw_events : List RawEvent) (tr : ℤ) :
    (allTimes raw_events tr).Nodup :=
  (allTimes_sorted raw_events tr).nodup

theorem mem_allTimes (raw_events : List RawEvent) (tr : ℤ) (a : ℚ) :
    a ∈ allTimes raw_events tr ↔ a ∈ eventTimes raw_events tr := by
  unfold allTimes
  induction eventTimes raw_events tr with
  | nil => simp
  | cons t ts ih => simp [mem_insertTime, ih]

theorem offset_mem_eventTimes {raw_events : List RawEvent} {tr : ℤ} {e : RawEvent}
    (he : e ∈ raw_events) (hne : validPitches tr e.pitches ≠ []) :
    e.offset ∈ eventTimes raw_events tr :=
  List.mem_flatMap.mpr ⟨e, he, by rw [if_neg hne]; simp⟩

theorem endpoint_mem_eventTimes {raw_events : List RawEvent} {tr : ℤ} {e : RawEvent}
    (he : e ∈ raw_events) (hne : validPitches tr e.pitches ≠ []) :
    e.offset + e.duration ∈ eventTimes raw_events tr :=
  List.mem_flatMap.mpr ⟨e, he, by rw [if_neg hne]; simp⟩

theorem support_of_mem_allTimes {raw_events : List RawEvent} {tr : ℤ} {t : ℚ}
    (ht : t ∈ allTimes raw_events tr) :
    startList raw_events tr t ≠ [] ∨ endList raw_events tr t ≠ [] := by
  obtain ⟨e, he, hte⟩ := List.mem_flatMap.mp ((mem_allTimes _ _ _).mp ht)
  by_cases hv : validPitches tr e.pitches = []
  · rw [if_pos hv] at hte
    simp at hte
  · rw [if_neg hv] at hte
    obtain ⟨p, hp⟩ := List.exists_mem_of_ne_nil _ hv
    simp only [List.mem_cons, List.mem_singleton, List.not_mem_nil, or_false] at hte
    rcases hte with h1 | h1
    · exact Or.inl (List.ne_nil_of_mem
        (List.mem_flatMap.mpr ⟨e, he, by rw [h1, if_pos rfl]; exact hp⟩))
    · exact Or.inr (List.ne_nil_of_mem
        (List.mem_flatMap.mpr ⟨e, he, by rw [h1, if_pos rfl]; exact hp⟩))

theorem sum_map_add {α : Type} (l : List α) (f g : α → ℕ) :
    (l.map (fun x => f x + g x)).sum = (l.map f).sum + (l.map g).sum := by
  induction l with
  | nil => simp
  | cons x xs ih => simp [ih]; omega

theorem sum_sum_comm {α β : Type} (L : List α) (E : List β) (h : β → α → ℕ) :
    (L.map (fun t => (E.map (fun e => h e t)).sum)).sum
      = (E.map (fun e => (L.map (fun t => h e t)).sum)).sum := by
  induction E with
  | nil => simp
  | cons e E ih =>
    simp only [List.map_cons, List.sum_cons]
    rw [← ih, ← sum_map_add]

theorem sum_map_ite_mem {α : Type} [DecidableEq α] (c : α) (k : ℕ) (L : List α)
    (hnd : L.Nodup) :
    (L.map (fun t => if c = t then k else 0)).sum = if c ∈ L then k else 0 := by
  induction L with
  | nil => simp
  | cons y ys ih =>
    obtain ⟨hy, hys⟩ := List.nodup_cons.mp hnd
    by_cases hcy : c = y
    · subst hcy
      simp [ih hys, hy]
    · simp [hcy, ih hys, List.mem_cons]

theorem sum_count_keyed (evs : List RawEvent) (κ : RawEvent → ℚ) (f : RawEvent → List ℤ)
    (L : List ℚ) (hnd : L.Nodup) (hmem : ∀ e ∈ evs, f e ≠ [] → κ e ∈ L) (p : ℤ) :
    (L.map (fun t => (evs.flatMap (fun e => if κ e = t then f e else [])).count p)).sum
      = (evs.map (fun e => (f e).count p)).sum := by
  have h1 : ∀ t, (evs.flatMap (fun e => if κ e = t then f e else [])).count p
      = (evs.map (fun e => if κ e = t then (f e).count p else 0)).sum := by
    intro t
    rw [List.count_flatMap]
    refine congrArg List.sum (congrFun (congrArg List.map (funext fun e => ?_)) evs)
    simp only [Function.comp_apply]
    by_cases hk : κ e = t
    · rw [if_pos hk, if_pos hk]
    · rw [if_neg hk, if_neg hk, List.count_nil]
  simp only [h1]
  rw [sum_sum_comm]
  refine congrArg List.sum (List.map_congr_left ?_)
  intro e he
  rw [sum_map_ite_mem _ _ _ hnd]
  by_cases hf : f e = []
  · simp [hf]
  · rw [if_pos (hmem e he hf)]

theorem procOffs_fst (l : List ℤ) (count : ℤ → ℤ) (pend : Finset ℤ) :
    (procOffs l count pend).1 = fun q => count q - l.count q := by
  induction l generalizing count pend with
  | nil => funext q; simp [procOffs]
  | cons p ps ih =>
    simp only [procOffs]
    rw [ih]
    funext q
    by_cases hq : q = p
    · subst hq
      simp [List.count_cons]
      omega
    · simp [hq, List.count_cons, hq]

theorem procOns_fst (l : List ℤ) (count : ℤ → ℤ) (pend : Finset ℤ) :
    (procOns l count pend).1 = fun q => count q + l.count q := by
  induction l generalizing count pend with
  | nil => funext q; simp [procOns]
  | cons p ps ih =>
    simp only [procOns]
    rw [ih]
    funext q
    by_cases hq : q = p
    · subst hq
      simp [List.count_cons]
      omega
    · simp [hq, List.count_cons, hq]

theorem procOffs_snd_mono (l : List ℤ) (count : ℤ → ℤ) (pend : Finset ℤ) :
    pend ⊆ (procOffs l count pend).2 := by
  induction l generalizing count pend with
  | nil => simp [procOffs]
  | cons p ps ih =>
    simp only [procOffs]
    refine subset_trans ?_ (ih _ _)
    split_ifs
    · exact Finset.subset_insert _ _
    · exact subset_rfl

theorem procOffs_snd_mem (l : List ℤ) (count : ℤ → ℤ) (pend : Finset ℤ) (p : ℤ)
    (hp : p ∈ l) (hc : count p = (l.count p : ℤ)) :
    p ∈ (procOffs l count pend).2 := by
  induction l generalizing count pend with
  | nil => simp at hp
  | cons q ps ih =>
    simp only [procOffs]
    by_cases hq : q = p
    · subst hq
      by_cases h0 : ps.count q = 0
      · have hz : count q - 1 = 0 := by
          rw [hc, List.count_cons]
          simp [h0]
        rw [if_pos hz]
        exact procOffs_snd_mono _ _ _ (Finset.mem_insert_self _ _)
      · have hmem : q ∈ ps := by
          rw [← List.count_pos_iff]
          omega
        refine ih _ _ hmem ?_
        simp only [if_pos rfl]
        rw [hc, List.count_cons]
        simp
    · have hmem : p ∈ ps := by
        rcases List.mem_cons.mp hp with h1 | h1
        · exact absurd h1.symm hq
        · exact h1
      refine ih _ _ hmem ?_
      have hqp : ¬ p = q := fun h => hq h.symm
      simp only [if_neg hqp]
      rw [hc, List.count_cons]
      simp [hqp, hq]

theorem procOns_snd_mono (l : List ℤ) (count : ℤ → ℤ) (pend : Finset ℤ) :
    pend ⊆ (procOns l count pend).2 := by
  induction l generalizing count pend with
  | nil => simp [procOns]
  | cons p ps ih =>
    simp only [procOns]
    exact subset_trans (Finset.subset_insert _ _) (ih _ _)

theorem procOns_snd_mem (l : List ℤ) (count : ℤ → ℤ) (pend : Finset ℤ) (p : ℤ)
    (hp : p ∈ l) : p ∈ (procOns l count pend).2 := by
  induction l generalizing count pend with
  | nil => simp at hp
  | cons q ps ih =>
    simp only [procOns]
    rcases List.mem_cons.mp hp with rfl | h1
    · exact procOns_snd_mono _ _ _ (Finset.mem_insert_self _ _)
    · exact ih _ _ h1

theorem countSum_cons (g : ℚ → List ℤ) (t : ℚ) (ts : List ℚ) (p : ℤ) :
    countSum g (t :: ts) p = ((g t).count p : ℤ) + countSum g ts p := by
  simp [countSum]

/-- Core of claim C3: on a time-point list in which every point carries a
start or an end, and on which the counter balances the remaining ends minus
the remaining starts, the sweep always emits at least one token, and the token
emitted last has an empty ON set and duration 0. -/
theorem encodeLoop_concat (sm em : ℚ → List ℤ) (ts : List ℚ) (count : ℤ → ℤ) (prev : ℚ)
    (pOn pOff : Finset ℤ)
    (hne : ts ≠ [])
    (hsupp : ∀ t ∈ ts, sm t ≠ [] ∨ em t ≠ [])
    (hinv : ∀ p, count p = countSum em ts p - countSum sm ts p) :
    ∃ toks tokL, encodeLoop sm em ts count prev pOn pOff = toks ++ [tokL] ∧
      tokL.onSet = ∅ ∧ tokL.dur = 0 := by
  induction ts generalizing count prev pOn pOff with
  | nil => exact absurd rfl hne
  | cons t rest ih =>
    cases rest with
    | nil =>
      rw [encodeLoop_last]
      have hcond : ¬ ((procOns (sm t) (procOffs (em t) count pOff).1 pOn).2 = ∅ ∧
          (procOffs (em t) count pOff).2 \ (procOns (sm t) (procOffs (em t) count pOff).1 pOn).2
            = ∅) := by
        rintro ⟨hOn, hOff⟩
        have hsm : sm t = [] := by
          by_contra hsm
          obtain ⟨p, hp⟩ := List.exists_mem_of_ne_nil _ hsm
          exact Finset.ne_empty_of_mem (procOns_snd_mem _ _ _ _ hp) hOn
        have hem : em t ≠ [] := by
          rcases hsupp t (List.mem_singleton_self t) with h1 | h1
          · exact absurd hsm h1
          · exact h1
        obtain ⟨p, hp⟩ := List.exists_mem_of_ne_nil _ hem
        have hc : count p = ((em t).count p : ℤ) := by
          have := hinv p
          rw [countSum_cons, countSum_cons] at this
          simp [countSum, hsm] at this
          simpa using this
        have hmem := procOffs_snd_mem (em t) count pOff p hp hc
        rw [hOn, Finset.sdiff_empty] at hOff
        rw [hOff] at hmem
        exact absurd hmem (Finset.not_mem_empty p)
      rw [if_neg hcond]
      exact ⟨[], _, rfl, rfl, rfl⟩
    | cons nt rest2 =>
      rw [encodeLoop_cons]
      have hsupp' : ∀ u ∈ nt :: rest2, sm u ≠ [] ∨ em u ≠ [] :=
        fun u hu => hsupp u (List.mem_cons_of_mem _ hu)
      have hinv' : ∀ p, (procOns (sm t) (procOffs (em t) count pOff).1 pOn).1 p
          = countSum em (nt :: rest2) p - countSum sm (nt :: rest2) p := by
        intro p
        rw [procOns_fst, procOffs_fst]
        dsimp only
        have := hinv p
        simp only [countSum_cons] at this ⊢
        omega
      split_ifs with hd
      · obtain ⟨toks, tokL, heq, h1, h2⟩ :=
          ih _ nt ∅ ∅ (List.cons_ne_nil _ _) hsupp' hinv'
        refine ⟨(⟨(procOns (sm t) (procOffs (em t) count pOff).1 pOn).2,
          (procOffs (em t) count pOff).2 \ (procOns (sm t) (procOffs (em t) count pOff).1 pOn).2,
          snap_to_grid (nt - prev)⟩ : Token) :: toks, tokL, ?_, h1, h2⟩
        rw [heq, List.cons_append]
      · exact ih _ prev _ _ (List.cons_ne_nil _ _) hsupp' hinv'

theorem countSum_cast (g : ℚ → List ℤ) (L : List ℚ) (p : ℤ) :
    countSum g L p = (((L.map (fun t => (g t).count p)).sum : ℕ) : ℤ) := by
  induction L with
  | nil => simp [countSum]
  | cons t ts ih =>
    rw [countSum_cons, ih]
    simp

theorem startSum (raw_events : List RawEvent) (tr : ℤ) (p : ℤ) :
    ((allTimes raw_events tr).map (fun t => (startList raw_events tr t).count p)).sum
      = (raw_events.map (fun e => (validPitches tr e.pitches).count p)).sum := by
  have h := sum_count_keyed raw_events (fun e => e.offset)
    (fun e => validPitches tr e.pitches) (allTimes raw_events tr)
    (allTimes_nodup _ _)
    (fun e he hne => (mem_allTimes _ _ _).mpr (offset_mem_eventTimes he hne)) p
  exact h

theorem endSum (raw_events : List RawEvent) (tr : ℤ) (p : ℤ) :
    ((allTimes raw_events tr).map (fun t => (endList raw_events tr t).count p)).sum
      = (raw_events.map (fun e => (validPitches tr e.pitches).count p)).sum := by
  have h := sum_count_keyed raw_events (fun e => e.offset + e.duration)
    (fun e => validPitches tr e.pitches) (allTimes raw_events tr)
    (allTimes_nodup _ _)
    (fun e he hne => (mem_allTimes _ _ _).mpr (endpoint_mem_eventTimes he hne)) p
  exact h

/-- Every pitch occurrence is registered once in `start_map` and once in
`end_map`, so over the whole timeline the signed counts balance. -/
theorem start_end_balance (raw_events : List RawEvent) (tr : ℤ) (p : ℤ) :
    countSum (endList raw_events tr) (allTimes raw_events tr) p
      = countSum (startList raw_events tr) (allTimes raw_events tr) p := by
  rw [countSum_cast, countSum_cast, startSum, endSum]

theorem generate_eq_nil (raw_events : List RawEvent) (tr : ℤ)
    (hA : allTimes raw_events tr = []) :
    _generate_tokens_from_events raw_events tr = [] := by
  unfold _generate_tokens_from_events
  rw [hA]

theorem generate_eq_encodeLoop (raw_events : List RawEvent) (tr : ℤ) (t0 : ℚ) (rest : List ℚ)
    (hA : allTimes raw_events tr = t0 :: rest) :
    _generate_tokens_from_events raw_events tr =
      encodeLoop (startList raw_events tr) (endList raw_events tr) (t0 :: rest)
        (fun _ => 0) t0 ∅ ∅ := by
  unfold _generate_tokens_from_events
  rw [hA]

theorem generate_concat (raw_events : List RawEvent) (tr : ℤ) (t0 : ℚ) (rest : List ℚ)
    (hA : allTimes raw_events tr = t0 :: rest) :
    ∃ toks tokL, _generate_tokens_from_events raw_events tr = toks ++ [tokL] ∧
      tokL.onSet = ∅ ∧ tokL.dur = 0 := by
  have hsupp : ∀ t ∈ t0 :: rest, startList raw_events tr t ≠ [] ∨ endList raw_events tr t ≠ [] :=
    fun t ht => support_of_mem_allTimes (by rw [hA]; exact ht)
  have hinv : ∀ p, (fun _ => (0 : ℤ)) p =
      countSum (endList raw_events tr) (t0 :: rest) p
        - countSum (startList raw_events tr) (t0 :: rest) p := by
    intro p
    dsimp only
    have h := start_end_balance raw_events tr p
    rw [hA] at h
    omega
  rw [generate_eq_encodeLoop raw_events tr t0 rest hA]
  exact encodeLoop_concat _ _ _ _ t0 ∅ ∅ (List.cons_ne_nil _ _) hsupp hinv

theorem serPitches_empty : serPitches ∅ = ['_'] := by
  simp [serPitches]

theorem serPitches_singleton (p : ℤ) : serPitches {p} = intChars p := by
  rw [serPitches, if_neg (Finset.singleton_ne_empty p), Finset.sort_singleton]
  simp [List.intercalate]

/-- Claim C2. Token disjointness invariant: in every token emitted by the
encoder, for any raw event list and any transposition, no pitch is in both the
ON set and the OFF set (a colliding pitch is kept in ON and removed from OFF
by the intersection cleanup). -/
theorem token_on_off_disjoint (raw_events : List RawEvent) (transpose_semitones : ℤ)
    (tok : Token) (h : tok ∈ _generate_tokens_from_events raw_events transpose_semitones) :
    tok.onSet ∩ tok.offSet = ∅ := by
  unfold _generate_tokens_from_events at h
  split at h
  · simp at h
  · exact encodeLoop_disjoint _ _ _ _ _ _ _ _ h

theorem generate_one_note_eval :
    _generate_tokens_from_events [⟨0, 1, [60]⟩] 0 = [⟨{60}, ∅, 1⟩, ⟨∅, {60}, 0⟩] := by
  norm_num [_generate_tokens_from_events, allTimes, eventTimes, validPitches, insertTime,
    encodeLoop, startList, endList, procOffs, procOns, snap_to_grid, round3, pyRound]

/-- Concrete instantiation of the disjointness invariant on a one-note input. -/
theorem token_on_off_disjoint_witness :
    (⟨{60}, ∅, 1⟩ : Token) ∈ _generate_tokens_from_events [⟨0, 1, [60]⟩] 0 ∧
      (⟨{60}, ∅, 1⟩ : Token).onSet ∩ (⟨{60}, ∅, 1⟩ : Token).offSet = ∅ := by
  have hm : (⟨{60}, ∅, 1⟩ : Token) ∈ _generate_tokens_from_events [⟨0, 1, [60]⟩] 0 := by
    rw [generate_one_note_eval]; exact List.mem_cons_self _ _
  exact ⟨hm, token_on_off_disjoint _ _ _ hm⟩

/-- Claim C3. Final-token invariant: whenever the encoder's output is
non-empty, its last token has an empty ON set, serialized as the sentinel
`_`, and duration 0, serialized as `0.000`, for every raw event list and every
transposition. -/
theorem final_token_empty_on (raw_events : List RawEvent) (transpose_semitones : ℤ)
    (tok : Token)
    (h : (_generate_tokens_from_events raw_events transpose_semitones).getLast? = some tok) :
    tok.onSet = ∅ ∧ tok.dur = 0 ∧ serPitches tok.onSet = ['_'] ∧
      fmt3 tok.dur = ['0', '.', '0', '0', '0'] := by
  have hmain : tok.onSet = ∅ ∧ tok.dur = 0 := by
    cases hA : allTimes raw_events transpose_semitones with
    | nil =>
      rw [generate_eq_nil _ _ hA] at h
      simp at h
    | cons t0 rest =>
      obtain ⟨toks, tokL, heq, h1, h2⟩ := generate_concat _ _ t0 rest hA
      rw [heq, List.getLast?_concat] at h
      cases Option.some.inj h
      exact ⟨h1, h2⟩
  obtain ⟨h1, h2⟩ := hmain
  have hnd : natDigits 0 = ['0'] := by
    rw [natDigits]
    norm_num
    decide
  have hfmt : fmt3 0 = ['0', '.', '0', '0', '0'] := by
    have hp0 : pyRound ((0 : ℚ) * 1000) = 0 := by
      rw [show ((0 : ℚ) * 1000) = ((0 : ℤ) : ℚ) from by norm_num, pyRound_intCast]
    rw [fmt3, hp0, if_neg (by norm_num)]
    norm_num [pad3, hnd]
  rw [h1, h2]
  exact ⟨rfl, rfl, serPitches_empty, hfmt⟩

/-- Concrete instantiation of the final-token invariant on a one-note input. -/
theorem final_token_empty_on_witness :
    (Token.mk ∅ {60} 0).onSet = ∅ ∧ (Token.mk ∅ {60} 0).dur = 0 ∧
      serPitches (Token.mk ∅ {60} 0).onSet = ['_'] ∧
      fmt3 (Token.mk ∅ {60} 0).dur = ['0', '.', '0', '0', '0'] :=
  final_token_empty_on [⟨0, 1, [60]⟩] 0 _ (by rw [generate_one_note_eval]; rfl)

theorem length_intRange (lo hi : ℤ) : (intRange lo hi).length = (hi - lo).toNat := by
  rw [intRange, List.length_map, List.length_range]

theorem mem_intRange (lo hi a : ℤ) : a ∈ intRange lo hi ↔ lo ≤ a ∧ a < hi := by
  rw [intRange, List.mem_map]
  constructor
  · rintro ⟨i, hi2, rfl⟩
    rw [List.mem_range] at hi2
    omega
  · rintro ⟨h1, h2⟩
    refine ⟨(a - lo).toNat, ?_, ?_⟩
    · rw [List.mem_range]
      omega
    · omega

/-- Claim C7. Augmentation window arithmetic: the window is exactly
`range(shift - 5, shift + 7)` for `shift = clamp(60 - median, -6, 5)`, has 12
members; median 60 gives the window -5..6 and median 72 gives shift -6 and
window -11..0. -/
theorem augment_window_arith (raw_events : List RawEvent) :
    (augmentShifts raw_events =
      intRange (max (-6) (min 5 (60 - _get_pitch_median raw_events)) - 5)
        (max (-6) (min 5 (60 - _get_pitch_median raw_events)) + 7)) ∧
    (augmentShifts raw_events).length = 12 ∧
    (_get_pitch_median raw_events = 60 →
      augmentShifts raw_events = [-5, -4, -3, -2, -1, 0, 1, 2, 3, 4, 5, 6]) ∧
    (_get_pitch_median raw_events = 72 →
      max (-6) (min 5 (60 - _get_pitch_median raw_events)) = -6 ∧
      augmentShifts raw_events = [-11, -10, -9, -8, -7, -6, -5, -4, -3, -2, -1, 0]) := by
  refine ⟨rfl, ?_, ?_, ?_⟩
  · rw [augmentShifts]
    rw [length_intRange]
    omega
  · intro h
    rw [augmentShifts, h]
    decide
  · intro h
    rw [augmentShifts, h]
    exact ⟨by decide, by decide⟩

/-- Concrete instantiation of the window arithmetic at median pitch 60. -/
theorem augment_window_arith_witness :
    _get_pitch_median [⟨0, 1, [60]⟩] = 60 ∧
      augmentShifts [⟨0, 1, [60]⟩] = [-5, -4, -3, -2, -1, 0, 1, 2, 3, 4, 5, 6] := by
  have hm : _get_pitch_median [⟨0, 1, [60]⟩] = 60 := by
    norm_num [_get_pitch_median, pyMedian, pyTrunc, sortInts, insertSortedInt]
  exact ⟨hm, (augment_window_arith [⟨0, 1, [60]⟩]).2.2.1 hm⟩

theorem pyTrunc_close (q : ℚ) : |(pyTrunc q : ℚ) - q| < 1 := by
  rw [pyTrunc]
  split_ifs with h
  · have h1 := Int.floor_le (-q)
    have h2 := Int.lt_floor_add_one (-q)
    rw [abs_lt]
    constructor <;> push_cast <;> linarith
  · have h1 := Int.floor_le q
    have h2 := Int.lt_floor_add_one q
    rw [abs_lt]
    constructor <;> linarith

/-- Claim C8. Median contract: the analyzer flattens all pitches of all
events; on empty data it returns 60, otherwise the statistical median of the
flattened collection converted to an integer (Python `int()` truncation, hence
within distance 1 of the exact median). -/
theorem pitch_median_contract (raw_events : List RawEvent) :
    (raw_events.flatMap (fun e => e.pitches) = [] → _get_pitch_median raw_events = 60) ∧
    (raw_events.flatMap (fun e => e.pitches) ≠ [] →
      _get_pitch_median raw_events
          = pyTrunc (pyMedian (raw_events.flatMap (fun e => e.pitches))) ∧
        |(_get_pitch_median raw_events : ℚ)
            - pyMedian (raw_events.flatMap (fun e => e.pitches))| < 1) := by
  constructor
  · intro h
    rw [_get_pitch_median]
    rw [if_pos h]
  · intro h
    have he : _get_pitch_median raw_events
        = pyTrunc (pyMedian (raw_events.flatMap (fun e => e.pitches))) := by
      rw [_get_pitch_median]
      rw [if_neg h]
    exact ⟨he, he ▸ pyTrunc_close _⟩

/-- Claim C9. The clamp of the shift to [-6, 5] guarantees that transposition
0 lies in the 12-member window; consequently, whenever the raw events contain
some pitch already in MIDI range, the augmented output contains the
untransposed token sequence. -/
theorem augment_includes_untransposed (raw_events : List RawEvent) :
    (0 : ℤ) ∈ augmentShifts raw_events ∧
    ((∃ e ∈ raw_events, ∃ p ∈ e.pitches, 0 ≤ p ∧ p ≤ 127) →
      _generate_tokens_from_events raw_events 0 ∈ parse_midi_to_tokens_augmented raw_events) := by
  have h0w : (0 : ℤ) ∈ augmentShifts raw_events := by
    rw [augmentShifts, mem_intRange]
    omega
  refine ⟨h0w, ?_⟩
  rintro ⟨e, he, p, hp, hlow, hhigh⟩
  have hvp : p + 0 ∈ validPitches 0 e.pitches := by
    rw [validPitches, List.mem_filter]
    exact ⟨List.mem_map.mpr ⟨p, hp, rfl⟩, by simp only [decide_eq_true_eq]; omega⟩
  have hv : validPitches 0 e.pitches ≠ [] := List.ne_nil_of_mem hvp
  have hT : e.offset ∈ allTimes raw_events 0 :=
    (mem_allTimes _ _ _).mpr (offset_mem_eventTimes he hv)
  obtain ⟨t0, rest, hA⟩ : ∃ t0 rest, allTimes raw_events 0 = t0 :: rest := by
    cases hA : allTimes raw_events 0 with
    | nil => rw [hA] at hT; exact absurd hT (List.not_mem_nil _)
    | cons a b => exact ⟨a, b, rfl⟩
  obtain ⟨toks, tokL, heq, _, _⟩ := generate_concat _ _ t0 rest hA
  have hne : _generate_tokens_from_events raw_events 0 ≠ [] := by
    rw [heq]
    simp
  rw [parse_midi_to_tokens_augmented]
  exact List.mem_filterMap.mpr ⟨0, h0w, by dsimp only; rw [if_neg hne]⟩

/-- Concrete instantiation: the untransposed variant is present in the
augmented output for a one-note input. -/
theorem augment_includes_untransposed_witness :
    _generate_tokens_from_events [⟨0, 1, [60]⟩] 0 ∈
      parse_midi_to_tokens_augmented [⟨0, 1, [60]⟩] :=
  (augment_includes_untransposed [⟨0, 1, [60]⟩]).2
    ⟨⟨0, 1, [60]⟩, List.mem_singleton_self _, 60, by decide, by decide, by decide⟩

/-- Concrete instantiation of the median contract on a one-note input. -/
theorem pitch_median_contract_witness :
    _get_pitch_median [⟨0, 1, [60]⟩]
      = pyTrunc (pyMedian (([⟨0, 1, [60]⟩] : List RawEvent).flatMap (fun e => e.pitches))) :=
  ((pitch_median_contract [⟨0, 1, [60]⟩]).2 (by simp)).1

theorem digitVal_digitChar (d : ℕ) (hd : d < 10) : digitVal (digitChar d) = some d := by
  interval_cases d <;> decide

theorem digitChar_not_special (d : ℕ) (hd : d < 10) :
    digitChar d ≠ ';' ∧ digitChar d ≠ '=' ∧ digitChar d ≠ ',' ∧ digitChar d ≠ '.' ∧
      digitChar d ≠ '_' ∧ digitChar d ≠ '-' ∧ digitChar d ≠ '+' := by
  interval_cases d <;> decide

theorem natDigits_mem_digit (n : ℕ) : ∀ c ∈ natDigits n, ∃ d, d < 10 ∧ c = digitChar d := by
  induction n using Nat.strong_induction_on with
  | _ n ih =>
    intro c hc
    rw [natDigits] at hc
    split_ifs at hc with h
    · exact ⟨n, h, (List.mem_singleton.mp hc).symm ▸ rfl⟩
    · rcases List.mem_append.mp hc with h1 | h1
      · exact ih (n / 10) (Nat.div_lt_self (by omega) (by omega)) c h1
      · exact ⟨n % 10, Nat.mod_lt _ (by omega), (List.mem_singleton.mp h1)⟩

theorem natDigits_ne_nil (n : ℕ) : natDigits n ≠ [] := by
  rw [natDigits]
  split_ifs
  · simp
  · simp

theorem parseDigitsAux_append (xs ys : List Char) (acc : ℕ) :
    parseDigitsAux acc (xs ++ ys) =
      (parseDigitsAux acc xs).bind (fun a => parseDigitsAux a ys) := by
  induction xs generalizing acc with
  | nil => simp [parseDigitsAux]
  | cons c rest ih =>
    simp only [List.cons_append, parseDigitsAux]
    cases digitVal c with
    | none => simp
    | some d => simp [ih]

theorem parseDigitsAux_natDigits (n : ℕ) :
    ∀ acc, parseDigitsAux acc (natDigits n) = some (acc * 10 ^ (natDigits n).length + n) := by
  induction n using Nat.strong_induction_on with
  | _ n ih =>
    intro acc
    rw [natDigits]
    split_ifs with h
    · simp [parseDigitsAux, digitVal_digitChar n h]
    · rw [parseDigitsAux_append]
      rw [ih (n / 10) (Nat.div_lt_self (by omega) (by omega))]
      rw [Option.some_bind]
      simp only [parseDigitsAux, digitVal_digitChar (n % 10) (by omega)]
      rw [List.length_append, List.length_singleton]
      rw [pow_succ, ← mul_assoc]
      generalize acc * 10 ^ (natDigits (n / 10)).length = A
      refine congrArg some ?_
      omega

theorem parseDigits_natDigits (n : ℕ) : parseDigits (natDigits n) = some n := by
  rw [parseDigits, if_neg (natDigits_ne_nil n), parseDigitsAux_natDigits]
  simp

theorem splitSep_not_mem {sep : Char} {xs : List Char} (h : sep ∉ xs) :
    splitSep sep xs = [xs] := by
  induction xs with
  | nil => rfl
  | cons c rest ih =>
    have hc : ¬ c = sep := fun he => h (he ▸ List.mem_cons_self c rest)
    have hrest : sep ∉ rest := fun hm => h (List.mem_cons_of_mem _ hm)
    simp only [splitSep, if_neg hc, ih hrest]

theorem splitSep_append {sep : Char} (xs ys : List Char) (h : sep ∉ xs) :
    splitSep sep (xs ++ sep :: ys) = xs :: splitSep sep ys := by
  induction xs with
  | nil => simp [splitSep]
  | cons c rest ih =>
    have hc : ¬ c = sep := fun he => h (he ▸ List.mem_cons_self c rest)
    have hrest : sep ∉ rest := fun hm => h (List.mem_cons_of_mem _ hm)
    simp only [List.cons_append, splitSep, if_neg hc]
    rw [List.append_eq, ih hrest]

theorem natDigits_length_lt10 {n : ℕ} (h : n < 10) : (natDigits n).length = 1 := by
  rw [natDigits, if_pos h]
  rfl

theorem natDigits_length_lt100 {n : ℕ} (h1 : 10 ≤ n) (h2 : n < 100) :
    (natDigits n).length = 2 := by
  rw [natDigits, if_neg (by omega), List.length_append,
    natDigits_length_lt10 (by omega : n / 10 < 10)]
  rfl

theorem natDigits_length_lt1000 {n : ℕ} (h1 : 100 ≤ n) (h2 : n < 1000) :
    (natDigits n).length = 3 := by
  rw [natDigits, if_neg (by omega), List.length_append,
    natDigits_length_lt100 (by omega : 10 ≤ n / 10) (by omega : n / 10 < 100)]
  rfl

theorem pad3_length {k : ℕ} (h : k < 1000) : (pad3 k).length = 3 := by
  rw [pad3]
  split_ifs with h1 h2
  · rw [List.length_append, natDigits_length_lt10 h1]
    rfl
  · rw [List.length_append, natDigits_length_lt100 (by omega) h2]
    rfl
  · rw [List.length_append, natDigits_length_lt1000 (by omega) h]
    rfl

theorem parseDigits_pad3 {k : ℕ} (_h : k < 1000) : parseDigits (pad3 k) = some k := by
  have haux : ∀ zs : List Char, parseDigitsAux 0 zs = some 0 →
      parseDigits (zs ++ natDigits k) = some k := by
    intro zs hzs
    cases zs with
    | nil =>
      simpa using parseDigits_natDigits k
    | cons z zrest =>
      rw [parseDigits, if_neg (by simp), parseDigitsAux_append, hzs, Option.some_bind,
        parseDigitsAux_natDigits]
      simp
  rw [pad3]
  split_ifs with h1 h2
  · exact haux ['0', '0'] (by decide)
  · exact haux ['0'] (by decide)
  · exact haux [] (by decide)

theorem pad3_mem_digit (k : ℕ) : ∀ c ∈ pad3 k, ∃ d, d < 10 ∧ c = digitChar d := by
  intro c hc
  rw [pad3] at hc
  have h0 : ('0' : Char) = digitChar 0 := by decide
  rcases List.mem_append.mp hc with h1 | h1
  · split_ifs at h1 <;> simp only [List.mem_cons, List.mem_singleton, List.not_mem_nil] at h1
    · rcases h1 with rfl | rfl | h1
      · exact ⟨0, by omega, h0⟩
      · exact ⟨0, by omega, h0⟩
      · exact absurd h1 (by simp)
    · rcases h1 with rfl | h1
      · exact ⟨0, by omega, h0⟩
      · exact absurd h1 (by simp)
  · exact natDigits_mem_digit k c h1

theorem pyInt_intChars {p : ℤ} (h : 0 ≤ p) : pyInt (intChars p) = some p := by
  rw [intChars, if_neg (not_lt.mpr h)]
  obtain ⟨c, rest, hcr⟩ : ∃ c rest, natDigits p.toNat = c :: rest := by
    cases hnd : natDigits p.toNat with
    | nil => exact absurd hnd (natDigits_ne_nil _)
    | cons a b => exact ⟨a, b, rfl⟩
  obtain ⟨d, hd, hcd⟩ := natDigits_mem_digit p.toNat c (hcr ▸ List.mem_cons_self _ _)
  have hns := digitChar_not_special d hd
  have hc1 : ¬ c = '-' := by rw [hcd]; exact hns.2.2.2.2.2.1
  have hc2 : ¬ c = '+' := by rw [hcd]; exact hns.2.2.2.2.2.2
  rw [hcr]
  simp only [pyInt, if_neg hc1, if_neg hc2]
  rw [← hcr, parseDigits_natDigits]
  simp [Int.toNat_of_nonneg h]

theorem natDigits_not_dot (n : ℕ) : ('.' : Char) ∉ natDigits n := by
  intro hm
  obtain ⟨d, hd, hcd⟩ := natDigits_mem_digit n _ hm
  exact (digitChar_not_special d hd).2.2.2.1 hcd.symm

theorem pad3_not_dot (k : ℕ) : ('.' : Char) ∉ pad3 k := by
  intro hm
  obtain ⟨d, hd, hcd⟩ := pad3_mem_digit k _ hm
  exact (digitChar_not_special d hd).2.2.2.1 hcd.symm

theorem pyFloat_fmt3 {q : ℚ} {k : ℤ} (h0 : 0 ≤ q) (hk : q * 1000 = (k : ℚ)) :
    pyFloat (fmt3 q) = some q := by
  have hkr : pyRound (q * 1000) = k := by rw [hk, pyRound_intCast]
  have hk0 : 0 ≤ k := by
    have hq : (0 : ℚ) ≤ (k : ℚ) := hk ▸ (by positivity)
    exact_mod_cast hq
  rw [fmt3, hkr, if_neg (not_lt.mpr hk0)]
  obtain ⟨c, rest, hcr⟩ : ∃ c rest, natDigits (k.toNat / 1000) = c :: rest := by
    cases hnd : natDigits (k.toNat / 1000) with
    | nil => exact absurd hnd (natDigits_ne_nil _)
    | cons a b => exact ⟨a, b, rfl⟩
  obtain ⟨d, hd, hcd⟩ := natDigits_mem_digit (k.toNat / 1000) c (hcr ▸ List.mem_cons_self _ _)
  have hns := digitChar_not_special d hd
  have hc1 : ¬ c = '-' := by rw [hcd]; exact hns.2.2.2.2.2.1
  have hc2 : ¬ c = '+' := by rw [hcd]; exact hns.2.2.2.2.2.2
  rw [hcr, List.cons_append]
  simp only [pyFloat, if_neg hc1, if_neg hc2]
  rw [← List.cons_append, ← hcr]
  have hsplit : splitSep '.' (natDigits (k.toNat / 1000) ++ '.' :: pad3 (k.toNat % 1000))
      = [natDigits (k.toNat / 1000), pad3 (k.toNat % 1000)] := by
    rw [splitSep_append _ _ (natDigits_not_dot _),
      splitSep_not_mem (pad3_not_dot _)]
  rw [pyFloatCore, hsplit]
  simp only [parseDigits_natDigits, parseDigits_pad3 (Nat.mod_lt _ (by omega)),
    pad3_length (Nat.mod_lt _ (by omega))]
  refine congrArg some ?_
  have hdm : 1000 * (k.toNat / 1000) + k.toNat % 1000 = k.toNat := Nat.div_add_mod _ 1000
  have hcast : ((k.toNat : ℤ) : ℚ) = (k : ℚ) := by rw [Int.toNat_of_nonneg hk0]
  have hq : q = (k : ℚ) / 1000 := by
    field_simp
    linarith [hk]
  have h1 : ((k.toNat : ℕ) : ℚ) = 1000 * ((k.toNat / 1000 : ℕ) : ℚ) + ((k.toNat % 1000 : ℕ) : ℚ) := by
    exact_mod_cast hdm.symm
  have h2 : ((k : ℤ) : ℚ) = ((k.toNat : ℕ) : ℚ) := by
    rw [← hcast]
    push_cast
    ring
  have h3 : (10 : ℚ) ^ 3 = 1000 := by norm_num
  rw [h3, hq, h2, h1]
  field_simp
  ring

theorem mem_insertByStart (x y : ℤ × ℚ × ℚ) (l : List (ℤ × ℚ × ℚ)) :
    y ∈ insertByStart x l ↔ y = x ∨ y ∈ l := by
  induction l with
  | nil => simp [insertByStart]
  | cons z zs ih =>
    rw [insertByStart]
    split_ifs
    · simp [List.mem_cons]
    · simp only [List.mem_cons, ih]
      tauto

theorem mem_sortByStart (y : ℤ × ℚ × ℚ) (l : List (ℤ × ℚ × ℚ)) :
    y ∈ sortByStart l ↔ y ∈ l := by
  induction l with
  | nil => simp [sortByStart]
  | cons z zs ih => simp [sortByStart, mem_insertByStart, ih]

theorem applyOff_notes_spec (st : DecState) (p : ℤ) (x : ℤ × ℚ × ℚ)
    (hx : x ∈ (applyOff st p).notes) : x ∈ st.notes ∨ (0 < x.2.2 ∧ x.2.2 ≤ 8) := by
  cases hgs : getStart st.noteState p with
  | none =>
    simp only [applyOff, hgs] at hx
    exact Or.inl hx
  | some start =>
    simp only [applyOff, hgs] at hx
    split_ifs at hx with hpos
    · rcases List.mem_append.mp hx with h1 | h1
      · exact Or.inl h1
      · rw [List.mem_singleton] at h1
        subst h1
        exact Or.inr ⟨lt_min hpos (by norm_num), min_le_right _ _⟩
    · exact Or.inl hx

theorem applyOn_notes_spec (st : DecState) (p : ℤ) (x : ℤ × ℚ × ℚ)
    (hx : x ∈ (applyOn st p).notes) : x ∈ st.notes ∨ (0 < x.2.2 ∧ x.2.2 ≤ 8) := by
  cases hgs : getStart st.noteState p with
  | none =>
    simp only [applyOn, hgs] at hx
    exact Or.inl hx
  | some start =>
    simp only [applyOn, hgs] at hx
    split_ifs at hx with hpos
    · rcases List.mem_append.mp hx with h1 | h1
      · exact Or.inl h1
      · rw [List.mem_singleton] at h1
        subst h1
        exact Or.inr ⟨lt_min hpos (by norm_num), min_le_right _ _⟩
    · exact Or.inl hx

theorem foldl_applyOff_notes (l : List ℤ) (st : DecState) (x : ℤ × ℚ × ℚ)
    (hx : x ∈ (l.foldl applyOff st).notes) : x ∈ st.notes ∨ (0 < x.2.2 ∧ x.2.2 ≤ 8) := by
  induction l generalizing st with
  | nil => exact Or.inl hx
  | cons p ps ih =>
    rcases ih (applyOff st p) hx with h1 | h1
    · exact applyOff_notes_spec _ _ _ h1
    · exact Or.inr h1

theorem foldl_applyOn_notes (l : List ℤ) (st : DecState) (x : ℤ × ℚ × ℚ)
    (hx : x ∈ (l.foldl applyOn st).notes) : x ∈ st.notes ∨ (0 < x.2.2 ∧ x.2.2 ≤ 8) := by
  induction l generalizing st with
  | nil => exact Or.inl hx
  | cons p ps ih =>
    rcases ih (applyOn st p) hx with h1 | h1
    · exact applyOn_notes_spec _ _ _ h1
    · exact Or.inr h1

theorem applyOnPhase_notes (st : DecState) (onStr : List Char) (dur : ℚ) (x : ℤ × ℚ × ℚ)
    (hx : x ∈ (applyOnPhase st onStr dur).notes) :
    x ∈ st.notes ∨ (0 < x.2.2 ∧ x.2.2 ≤ 8) := by
  rw [applyOnPhase] at hx
  split_ifs at hx with h
  · exact Or.inl hx
  · cases hp : parsePitchList onStr with
    | none =>
      simp only [hp] at hx
      exact Or.inl hx
    | some ons =>
      simp only [hp] at hx
      exact foldl_applyOn_notes _ _ _ hx

theorem decodeStep_notes (st : DecState) (tok : List Char) (x : ℤ × ℚ × ℚ)
    (hx : x ∈ (decodeStep st tok).notes) : x ∈ st.notes ∨ (0 < x.2.2 ∧ x.2.2 ≤ 8) := by
  rw [decodeStep] at hx
  cases h1 : tokenFields tok with
  | none =>
    simp only [h1] at hx
    exact Or.inl hx
  | some fs =>
    obtain ⟨onStr, offStr, durStr⟩ := fs
    simp only [h1] at hx
    cases h2 : pyFloat durStr with
    | none =>
      simp only [h2] at hx
      exact Or.inl hx
    | some dur =>
      simp only [h2] at hx
      split_ifs at hx with h3
      · exact applyOnPhase_notes _ _ _ _ hx
      · cases h4 : parsePitchList offStr with
        | none =>
          simp only [h4] at hx
          exact Or.inl hx
        | some offs =>
          simp only [h4] at hx
          rcases applyOnPhase_notes _ _ _ _ hx with h5 | h5
          · exact foldl_applyOff_notes _ _ _ h5
          · exact Or.inr h5

theorem runTokens_notes (tokens : List (List Char)) (st : DecState) (x : ℤ × ℚ × ℚ)
    (hx : x ∈ (tokens.foldl decodeStep st).notes) :
    x ∈ st.notes ∨ (0 < x.2.2 ∧ x.2.2 ≤ 8) := by
  induction tokens generalizing st with
  | nil => exact Or.inl hx
  | cons tok toks ih =>
    rcases ih (decodeStep st tok) hx with h1 | h1
    · exact decodeStep_notes _ _ _ h1
    · exact Or.inr h1

theorem flushNotes_spec (st : DecState) (q : ℤ) (s dur : ℚ)
    (h : (q, s, dur) ∈ flushNotes st) :
    dur = min (st.time - s) 8 ∧ 0 < dur ∧ s ≠ st.time := by
  rw [flushNotes] at h
  obtain ⟨e, he, heq⟩ := List.mem_filterMap.mp h
  obtain ⟨ep, eo⟩ := e
  cases eo with
  | none => simp at heq
  | some start =>
    dsimp only at heq
    split_ifs at heq with hpos
    simp only [Option.some.injEq, Prod.mk.injEq] at heq
    obtain ⟨h1, h2, h3⟩ := heq
    subst h1
    subst h2
    subst h3
    refine ⟨rfl, hpos, ?_⟩
    intro he2
    rw [he2] at hpos
    norm_num at hpos

theorem flushNotes_bounds (st : DecState) (x : ℤ × ℚ × ℚ) (hx : x ∈ flushNotes st) :
    0 < x.2.2 ∧ x.2.2 ≤ 8 := by
  obtain ⟨q, s, dur⟩ := x
  have h := flushNotes_spec st q s dur hx
  exact ⟨h.2.1, h.1 ▸ min_le_right _ _⟩

/-- Claim C5. Decoder duration bounds: every note interval produced by
`tokens_to_midi` - closed by an explicit OFF, a re-attack ON, or the final
flush - has duration strictly positive and at most `MAX_NOTE_DURATION = 8.0`
(longer raw durations having been clamped by the `min`). -/
theorem decoded_duration_bounds (tokens : List (List Char)) (x : ℤ × ℚ × ℚ)
    (hx : x ∈ tokens_to_midi tokens) : 0 < x.2.2 ∧ x.2.2 ≤ 8 := by
  rw [tokens_to_midi] at hx
  rw [mem_sortByStart] at hx
  rcases List.mem_append.mp hx with h1 | h1
  · rcases runTokens_notes _ _ _ h1 with h2 | h2
    · simp at h2
    · exact h2
  · exact flushNotes_bounds _ _ h1

/-- Concrete instantiation of the duration bounds: a 9-beat note is clamped
to duration exactly 8. -/
theorem decoded_duration_bounds_witness :
    ((5 : ℤ), (0 : ℚ), (8 : ℚ)) ∈ tokens_to_midi
        ["ON=5;OFF=_;DUR=9.000".toList, "ON=_;OFF=5;DUR=0.000".toList] ∧
      (0 : ℚ) < 8 ∧ (8 : ℚ) ≤ 8 := by
  have hm : ((5 : ℤ), (0 : ℚ), (8 : ℚ)) ∈ tokens_to_midi
      ["ON=5;OFF=_;DUR=9.000".toList, "ON=_;OFF=5;DUR=0.000".toList] := by
    with_unfolding_all decide
  exact ⟨hm, decoded_duration_bounds _ _ hm⟩

/-- Claim C10. During the decoder's final flush, a still-open pitch is emitted
only with its clamp `min(final_clock - start, 8)` as duration and only when
that clamp is strictly positive; in particular no flushed interval starts at
the final clock value, so a pitch opened exactly at the final clock (for
example by an ON in a trailing DUR=0.000 token) is silently dropped. -/
theorem final_flush_requires_positive (tokens : List (List Char)) (q : ℤ) (s dur : ℚ)
    (h : (q, s, dur) ∈ flushNotes (tokens.foldl decodeStep ⟨0, [], []⟩)) :
    dur = min ((tokens.foldl decodeStep ⟨0, [], []⟩).time - s) 8 ∧ 0 < dur ∧
      s ≠ (tokens.foldl decodeStep ⟨0, [], []⟩).time :=
  flushNotes_spec _ q s dur h

/-- Concrete instantiation of the flush rule: a single opened note flushes
with its positive clamped duration. -/
theorem final_flush_requires_positive_witness :
    ((5 : ℤ), (0 : ℚ), (1 : ℚ)) ∈ flushNotes
        ((["ON=5;OFF=_;DUR=1.000".toList]).foldl decodeStep ⟨0, [], []⟩) ∧
      ((1 : ℚ) = min (((["ON=5;OFF=_;DUR=1.000".toList]).foldl decodeStep
          ⟨0, [], []⟩).time - 0) 8 ∧
        (0 : ℚ) < 1 ∧
        (0 : ℚ) ≠ ((["ON=5;OFF=_;DUR=1.000".toList]).foldl decodeStep ⟨0, [], []⟩).time) := by
  have hm : ((5 : ℤ), (0 : ℚ), (1 : ℚ)) ∈ flushNotes
      ((["ON=5;OFF=_;DUR=1.000".toList]).foldl decodeStep ⟨0, [], []⟩) := by
    with_unfolding_all decide
  exact ⟨hm, final_flush_requires_positive _ _ _ _ hm⟩

/-- Counterexample to claim C6 as stated: the token
`ON=abc;OFF=5;DUR=1.000` is malformed (its ON pitch does not parse), yet it
does affect the decoder state - its OFF half runs before the failure and
closes pitch 5 silently at elapsed time 0 - so decoding the three-token list
yields no note, while deleting the malformed token yields one. -/
theorem malformed_token_affects_state :
    tokens_to_midi ["ON=5;OFF=_;DUR=0.000".toList, "ON=abc;OFF=5;DUR=1.000".toList,
        "ON=_;OFF=_;DUR=1.000".toList] = [] ∧
    tokens_to_midi ["ON=5;OFF=_;DUR=0.000".toList, "ON=_;OFF=_;DUR=1.000".toList]
        = [(5, 0, 1)] ∧
    pyInt ("abc".toList) = none := by
  refine ⟨?_, ?_, ?_⟩ <;> with_unfolding_all decide

theorem applyOff_time (st : DecState) (p : ℤ) : (applyOff st p).time = st.time := rfl

theorem foldl_applyOff_time (l : List ℤ) (st : DecState) :
    (l.foldl applyOff st).time = st.time := by
  induction l generalizing st with
  | nil => rfl
  | cons p ps ih => rw [List.foldl_cons, ih, applyOff_time]

theorem decodeStep_eq_fields_none {tok : List Char} (st : DecState)
    (h : tokenFields tok = none) : decodeStep st tok = st := by
  rw [decodeStep, h]

theorem decodeStep_eq_dur_none {tok onStr offStr durStr} (st : DecState)
    (h1 : tokenFields tok = some (onStr, offStr, durStr))
    (h2 : pyFloat durStr = none) : decodeStep st tok = st := by
  rw [decodeStep, h1]
  dsimp only
  rw [h2]

theorem decodeStep_eq_off_sentinel {tok onStr offStr durStr dur} (st : DecState)
    (h1 : tokenFields tok = some (onStr, offStr, durStr))
    (h2 : pyFloat durStr = some dur)
    (h3 : offStr = ['_']) : decodeStep st tok = applyOnPhase st onStr dur := by
  rw [decodeStep, h1]
  dsimp only
  rw [h2]
  dsimp only
  rw [if_pos h3]

theorem decodeStep_eq_off_fail {tok onStr offStr durStr dur} (st : DecState)
    (h1 : tokenFields tok = some (onStr, offStr, durStr))
    (h2 : pyFloat durStr = some dur)
    (h3 : ¬ offStr = ['_'])
    (h4 : parsePitchList offStr = none) : decodeStep st tok = st := by
  rw [decodeStep, h1]
  dsimp only
  rw [h2]
  dsimp only
  rw [if_neg h3, h4]

theorem decodeStep_eq_off_some {tok onStr offStr durStr dur offs} (st : DecState)
    (h1 : tokenFields tok = some (onStr, offStr, durStr))
    (h2 : pyFloat durStr = some dur)
    (h3 : ¬ offStr = ['_'])
    (h4 : parsePitchList offStr = some offs) :
    decodeStep st tok = applyOnPhase (offs.foldl applyOff st) onStr dur := by
  rw [decodeStep, h1]
  dsimp only
  rw [h2]
  dsimp only
  rw [if_neg h3, h4]

theorem applyOnPhase_eq_sentinel {onStr} (st : DecState) (dur : ℚ) (h : onStr = ['_']) :
    applyOnPhase st onStr dur = ⟨st.time + dur, st.noteState, st.notes⟩ := by
  rw [applyOnPhase, if_pos h]

theorem applyOnPhase_eq_fail {onStr} (st : DecState) (dur : ℚ) (h : ¬ onStr = ['_'])
    (h2 : parsePitchList onStr = none) : applyOnPhase st onStr dur = st := by
  rw [applyOnPhase, if_neg h, h2]

theorem applyOnPhase_eq_some {onStr ons} (st : DecState) (dur : ℚ) (h : ¬ onStr = ['_'])
    (h2 : parsePitchList onStr = some ons) :
    applyOnPhase st onStr dur = ⟨(ons.foldl applyOn st).time + dur,
      (ons.foldl applyOn st).noteState, (ons.foldl applyOn st).notes⟩ := by
  rw [applyOnPhase, if_neg h, h2]

theorem parseToken_on_fail {tok onStr offStr durStr dur}
    (h : parseToken tok = none)
    (h1 : tokenFields tok = some (onStr, offStr, durStr))
    (h2 : pyFloat durStr = some dur)
    (hoff : (if offStr = ['_'] then some ([] : List ℤ) else parsePitchList offStr) ≠ none) :
    ¬ onStr = ['_'] ∧ parsePitchList onStr = none := by
  rw [parseToken, h1] at h
  dsimp only at h
  rw [h2] at h
  dsimp only at h
  cases hoffv : (if offStr = ['_'] then some ([] : List ℤ) else parsePitchList offStr) with
  | none => exact absurd hoffv hoff
  | some offs =>
    rw [hoffv] at h
    dsimp only at h
    constructor
    · intro h4
      rw [if_pos h4] at h
      simp at h
    · by_cases h4 : onStr = ['_']
      · rw [if_pos h4] at h
        simp at h
      · rw [if_neg h4] at h
        cases h5 : parsePitchList onStr with
        | none => rfl
        | some ons =>
          rw [h5] at h
          simp at h

/-- Claim C6, amended: a malformed token is skipped without advancing the
clock, and decoding continues with the next token on the resulting state; a
token malformed in its field structure, its DUR field, or its OFF list has no
state effect at all; only a token malformed in just its ON list keeps the OFF
effects applied before the failure point. -/
theorem malformed_token_recovery (st : DecState) (tok : List Char)
    (h : parseToken tok = none) :
    (decodeStep st tok).time = st.time ∧
    (∀ rest : List (List Char), (tok :: rest).foldl decodeStep st
        = rest.foldl decodeStep (decodeStep st tok)) ∧
    ((tokenFields tok = none ∨
        (∃ fs, tokenFields tok = some fs ∧ pyFloat fs.2.2 = none) ∨
        (∃ fs, tokenFields tok = some fs ∧ fs.2.1 ≠ ['_'] ∧
          parsePitchList fs.2.1 = none)) →
      decodeStep st tok = st) := by
  refine ⟨?_, fun rest => rfl, ?_⟩
  · cases h1 : tokenFields tok with
    | none => rw [decodeStep_eq_fields_none st h1]
    | some fs =>
      obtain ⟨onStr, offStr, durStr⟩ := fs
      cases h2 : pyFloat durStr with
      | none => rw [decodeStep_eq_dur_none st h1 h2]
      | some dur =>
        by_cases h3 : offStr = ['_']
        · have hON := parseToken_on_fail h h1 h2 (by rw [if_pos h3]; simp)
          rw [decodeStep_eq_off_sentinel st h1 h2 h3,
            applyOnPhase_eq_fail st dur hON.1 hON.2]
        · cases h4 : parsePitchList offStr with
          | none => rw [decodeStep_eq_off_fail st h1 h2 h3 h4]
          | some offs =>
            have hON := parseToken_on_fail h h1 h2 (by rw [if_neg h3, h4]; simp)
            rw [decodeStep_eq_off_some st h1 h2 h3 h4,
              applyOnPhase_eq_fail _ dur hON.1 hON.2]
            exact foldl_applyOff_time _ _
  · rintro (h1 | ⟨⟨onStr, offStr, durStr⟩, h1, h2⟩ | ⟨⟨onStr, offStr, durStr⟩, h1, h2, h3⟩)
    · exact decodeStep_eq_fields_none st h1
    · exact decodeStep_eq_dur_none st h1 h2
    · cases h5 : pyFloat durStr with
      | none => exact decodeStep_eq_dur_none st h1 h5
      | some dur => exact decodeStep_eq_off_fail st h1 h5 h2 h3

/-- Concrete instantiation of the amended recovery rule on a token whose ON
field is not numeric. -/
theorem malformed_token_recovery_witness :
    parseToken ("ON=abc;OFF=5;DUR=1.000".toList) = none ∧
      (decodeStep ⟨0, [], []⟩ ("ON=abc;OFF=5;DUR=1.000".toList)).time
        = (⟨0, [], []⟩ : DecState).time := by
  have hp : parseToken ("ON=abc;OFF=5;DUR=1.000".toList) = none := by
    with_unfolding_all decide
  exact ⟨hp, (malformed_token_recovery _ _ hp).1⟩

theorem snap_to_grid_zero_of_lt {d : ℚ} (h : d < 4/100) : snap_to_grid d = 0 := by
  simp only [snap_to_grid, if_pos h]

theorem snap_to_grid_pos_le {d : ℚ} (h : 0 < snap_to_grid d) : 4/100 ≤ d := by
  by_contra h2
  rw [snap_to_grid_zero_of_lt (not_le.mp h2)] at h
  exact lt_irrefl 0 h

theorem procOffs_nil (c : ℤ → ℤ) (pend : Finset ℤ) : procOffs [] c pend = (c, pend) := rfl

theorem procOns_nil (c : ℤ → ℤ) (pend : Finset ℤ) : procOns [] c pend = (c, pend) := rfl

theorem procOns_singleton (q : ℤ) (c : ℤ → ℤ) (pend : Finset ℤ) :
    procOns [q] c pend = (fun q' => if q' = q then c q + 1 else c q', insert q pend) := rfl

theorem procOffs_singleton (q : ℤ) (c : ℤ → ℤ) (pend : Finset ℤ) :
    procOffs [q] c pend
      = (fun q' => if q' = q then c q - 1 else c q',
         if c q - 1 = 0 then insert q pend else pend) := rfl

theorem generate_reattack_eval (t0 d1 d2 : ℚ) (p : ℤ)
    (hp0 : 0 ≤ p) (hp127 : p ≤ 127)
    (hs1 : 0 < snap_to_grid d1) (hs2 : 0 < snap_to_grid d2) :
    _generate_tokens_from_events [⟨t0, d1, [p]⟩, ⟨t0 + d1, d2, [p]⟩] 0
      = [⟨{p}, ∅, snap_to_grid d1⟩, ⟨{p}, ∅, snap_to_grid d2⟩, ⟨∅, {p}, 0⟩] := by
  have hd1 : (0:ℚ) < d1 := lt_of_lt_of_le (by norm_num) (snap_to_grid_pos_le hs1)
  have hd2 : (0:ℚ) < d2 := lt_of_lt_of_le (by norm_num) (snap_to_grid_pos_le hs2)
  have hvp : validPitches 0 [p] = [p] := by
    simp [validPitches, hp0, hp127]
  have hev : eventTimes [⟨t0, d1, [p]⟩, ⟨t0 + d1, d2, [p]⟩] 0
      = [t0, t0 + d1, t0 + d1, t0 + d1 + d2] := by
    simp [eventTimes, hvp, add_assoc]
  have hA : allTimes [⟨t0, d1, [p]⟩, ⟨t0 + d1, d2, [p]⟩] 0
      = [t0, t0 + d1, t0 + d1 + d2] := by
    rw [allTimes, hev]
    simp only [List.foldr]
    rw [insertTime, insertTime]
    rw [if_pos (by linarith : t0 + d1 < t0 + d1 + d2)]
    rw [insertTime]
    rw [if_neg (by linarith : ¬ t0 + d1 < t0 + d1), if_pos rfl]
    rw [insertTime]
    rw [if_pos (by linarith : t0 < t0 + d1)]
  have hsm0 : startList [⟨t0, d1, [p]⟩, ⟨t0 + d1, d2, [p]⟩] 0 t0 = [p] := by
    simp [startList, hvp, (by linarith : ¬ t0 + d1 = t0)]
  have hem0 : endList [⟨t0, d1, [p]⟩, ⟨t0 + d1, d2, [p]⟩] 0 t0 = [] := by
    simp [endList, hvp, (by linarith : ¬ t0 + d1 = t0),
      (by linarith : ¬ t0 + d1 + d2 = t0)]
  have hsm1 : startList [⟨t0, d1, [p]⟩, ⟨t0 + d1, d2, [p]⟩] 0 (t0 + d1) = [p] := by
    simp [startList, hvp, (by linarith : ¬ t0 = t0 + d1)]
  have hem1 : endList [⟨t0, d1, [p]⟩, ⟨t0 + d1, d2, [p]⟩] 0 (t0 + d1) = [p] := by
    simp [endList, hvp, (by linarith : ¬ t0 + d1 + d2 = t0 + d1)]
  have hsm2 : startList [⟨t0, d1, [p]⟩, ⟨t0 + d1, d2, [p]⟩] 0 (t0 + d1 + d2) = [] := by
    simp [startList, hvp, (by linarith : ¬ t0 = t0 + d1 + d2),
      (by linarith : ¬ t0 + d1 = t0 + d1 + d2)]
  have hem2 : endList [⟨t0, d1, [p]⟩, ⟨t0 + d1, d2, [p]⟩] 0 (t0 + d1 + d2) = [p] := by
    simp [endList, hvp, (by linarith : ¬ t0 + d1 = t0 + d1 + d2), add_assoc]
    exact hd2.ne'
  rw [generate_eq_encodeLoop _ _ _ _ hA]
  rw [encodeLoop_cons, hem0, hsm0]
  rw [procOffs_nil, procOns_singleton]
  dsimp only
  rw [show t0 + d1 - t0 = d1 by ring]
  rw [if_pos hs1]
  congr 1
  rw [encodeLoop_cons, hem1, hsm1]
  rw [procOffs_singleton]
  dsimp only
  simp only [eq_self_iff_true, if_true]
  norm_num
  rw [procOns_singleton]
  dsimp only
  rw [if_pos hs2]
  congr 1
  · simp
  rw [encodeLoop_last, hem2, hsm2]
  rw [procOffs_singleton, procOns_nil]
  dsimp only
  norm_num

theorem intChars_mem_digit {p : ℤ} (hp : 0 ≤ p) :
    ∀ c ∈ intChars p, ∃ d, d < 10 ∧ c = digitChar d := by
  rw [intChars, if_neg (not_lt.mpr hp)]
  exact natDigits_mem_digit _

theorem intChars_not_semi {p : ℤ} (hp : 0 ≤ p) : (';' : Char) ∉ intChars p := by
  intro hm
  obtain ⟨d, hd, hcd⟩ := intChars_mem_digit hp _ hm
  exact (digitChar_not_special d hd).1 hcd.symm

theorem intChars_not_eq {p : ℤ} (hp : 0 ≤ p) : ('=' : Char) ∉ intChars p := by
  intro hm
  obtain ⟨d, hd, hcd⟩ := intChars_mem_digit hp _ hm
  exact (digitChar_not_special d hd).2.1 hcd.symm

theorem intChars_not_comma {p : ℤ} (hp : 0 ≤ p) : (',' : Char) ∉ intChars p := by
  intro hm
  obtain ⟨d, hd, hcd⟩ := intChars_mem_digit hp _ hm
  exact (digitChar_not_special d hd).2.2.1 hcd.symm

theorem intChars_ne_underscore {p : ℤ} (hp : 0 ≤ p) : intChars p ≠ ['_'] := by
  intro he
  have hm : ('_' : Char) ∈ intChars p := he ▸ List.mem_singleton_self _
  obtain ⟨d, hd, hcd⟩ := intChars_mem_digit hp _ hm
  exact (digitChar_not_special d hd).2.2.2.2.1 hcd.symm

theorem fmt3_mem {q : ℚ} (h : 0 ≤ q) :
    ∀ c ∈ fmt3 q, c = '.' ∨ ∃ d, d < 10 ∧ c = digitChar d := by
  rw [fmt3, if_neg (not_lt.mpr (pyRound_nonneg (by positivity)))]
  intro c hc
  rcases List.mem_append.mp hc with h1 | h1
  · exact Or.inr (natDigits_mem_digit _ _ h1)
  · rcases List.mem_cons.mp h1 with rfl | h1
    · exact Or.inl rfl
    · exact Or.inr (pad3_mem_digit _ _ h1)

theorem fmt3_not_semi {q : ℚ} (h : 0 ≤ q) : (';' : Char) ∉ fmt3 q := by
  intro hm
  rcases fmt3_mem h _ hm with h1 | ⟨d, hd, hcd⟩
  · exact absurd h1 (by decide)
  · exact (digitChar_not_special d hd).1 hcd.symm

theorem fmt3_not_eq {q : ℚ} (h : 0 ≤ q) : ('=' : Char) ∉ fmt3 q := by
  intro hm
  rcases fmt3_mem h _ hm with h1 | ⟨d, hd, hcd⟩
  · exact absurd h1 (by decide)
  · exact (digitChar_not_special d hd).2.1 hcd.symm

theorem fieldVal_two (pre : List Char) (v : List Char) (hpre : ('=' : Char) ∉ pre)
    (hv : ('=' : Char) ∉ v) : fieldVal (pre ++ '=' :: v) = some v := by
  rw [fieldVal, splitSep_append _ _ hpre, splitSep_not_mem hv]

theorem tokenFields_chars (onC offC durC : List Char)
    (hon : (';' : Char) ∉ onC) (hon2 : ('=' : Char) ∉ onC)
    (hoff : (';' : Char) ∉ offC) (hoff2 : ('=' : Char) ∉ offC)
    (hdur : (';' : Char) ∉ durC) (hdur2 : ('=' : Char) ∉ durC) :
    tokenFields ('O' :: 'N' :: '=' :: (onC ++ ';' :: 'O' :: 'F' :: 'F' :: '=' ::
      (offC ++ ';' :: 'D' :: 'U' :: 'R' :: '=' :: durC))) = some (onC, offC, durC) := by
  have e1 : 'O' :: 'N' :: '=' :: (onC ++ ';' :: 'O' :: 'F' :: 'F' :: '=' ::
      (offC ++ ';' :: 'D' :: 'U' :: 'R' :: '=' :: durC))
      = (['O', 'N', '='] ++ onC) ++ ';' :: ((['O', 'F', 'F', '='] ++ offC) ++
          ';' :: (['D', 'U', 'R', '='] ++ durC)) := by
    simp
  have hm1 : (';' : Char) ∉ ['O', 'N', '='] ++ onC := by
    intro hm
    rcases List.mem_append.mp hm with h1 | h1
    · exact absurd h1 (by decide)
    · exact hon h1
  have hm2 : (';' : Char) ∉ ['O', 'F', 'F', '='] ++ offC := by
    intro hm
    rcases List.mem_append.mp hm with h1 | h1
    · exact absurd h1 (by decide)
    · exact hoff h1
  have hm3 : (';' : Char) ∉ ['D', 'U', 'R', '='] ++ durC := by
    intro hm
    rcases List.mem_append.mp hm with h1 | h1
    · exact absurd h1 (by decide)
    · exact hdur h1
  rw [tokenFields, e1, splitSep_append _ _ hm1, splitSep_append _ _ hm2,
    splitSep_not_mem hm3]
  dsimp only
  rw [show (['O', 'N', '='] ++ onC) = ['O', 'N'] ++ '=' :: onC from by simp,
    show (['O', 'F', 'F', '='] ++ offC) = ['O', 'F', 'F'] ++ '=' :: offC from by simp,
    show (['D', 'U', 'R', '='] ++ durC) = ['D', 'U', 'R'] ++ '=' :: durC from by simp]
  rw [fieldVal_two _ _ (by decide) hon2, fieldVal_two _ _ (by decide) hoff2,
    fieldVal_two _ _ (by decide) hdur2]

theorem parsePitchList_intChars {p : ℤ} (hp : 0 ≤ p) :
    parsePitchList (intChars p) = some [p] := by
  rw [parsePitchList, splitSep_not_mem (intChars_not_comma hp)]
  simp [parseIntList, pyInt_intChars hp]

theorem round3_thousand (q : ℚ) : round3 q * 1000 = ((pyRound (q * 1000) : ℤ) : ℚ) := by
  rw [round3]
  field_simp

theorem snap_thousand (d : ℚ) : ∃ k : ℤ, snap_to_grid d * 1000 = ((k : ℤ) : ℚ) := by
  rw [snap_to_grid]
  split_ifs
  · exact ⟨0, by norm_num⟩
  · exact ⟨_, round3_thousand _⟩
  · exact ⟨_, round3_thousand _⟩

theorem snap_to_grid_nonneg (d : ℚ) : 0 ≤ snap_to_grid d := by
  by_cases h : d < 4/100
  · rw [snap_to_grid_zero_of_lt h]
  · have hd : 0 ≤ d := le_trans (by norm_num) (not_lt.mp h)
    rw [snap_to_grid]
    rw [if_neg h]
    split_ifs
    · exact round3_nonneg (mul_nonneg (by exact_mod_cast pyRound_nonneg (by positivity)) (by norm_num))
    · exact round3_nonneg (mul_nonneg (by exact_mod_cast pyRound_nonneg (by positivity)) (by norm_num))

theorem decode_reattack_eval (p : ℤ) (s1 s2 : ℚ) (hp : 0 ≤ p)
    (h1 : 0 < s1) (h2 : 0 < s2)
    (hk1e : ∃ k : ℤ, s1 * 1000 = (k : ℚ)) (hk2e : ∃ k : ℤ, s2 * 1000 = (k : ℚ)) :
    tokens_to_midi [tokenChars ⟨{p}, ∅, s1⟩, tokenChars ⟨{p}, ∅, s2⟩, tokenChars ⟨∅, {p}, 0⟩]
      = [(p, 0, min s1 8), (p, s1, min s2 8)] := by
  obtain ⟨k1, hk1⟩ := hk1e
  obtain ⟨k2, hk2⟩ := hk2e
  have hs1nn : (0 : ℚ) ≤ s1 := h1.le
  have hs2nn : (0 : ℚ) ≤ s2 := h2.le
  have hser1 : tokenChars ⟨{p}, ∅, s1⟩ = 'O' :: 'N' :: '=' :: (intChars p ++ ';' :: 'O' ::
      'F' :: 'F' :: '=' :: (['_'] ++ ';' :: 'D' :: 'U' :: 'R' :: '=' :: fmt3 s1)) := by
    rw [tokenChars]
    dsimp only
    rw [serPitches_singleton, serPitches_empty]
  have hser2 : tokenChars ⟨{p}, ∅, s2⟩ = 'O' :: 'N' :: '=' :: (intChars p ++ ';' :: 'O' ::
      'F' :: 'F' :: '=' :: (['_'] ++ ';' :: 'D' :: 'U' :: 'R' :: '=' :: fmt3 s2)) := by
    rw [tokenChars]
    dsimp only
    rw [serPitches_singleton, serPitches_empty]
  have hser3 : tokenChars ⟨∅, {p}, 0⟩ = 'O' :: 'N' :: '=' :: (['_'] ++ ';' :: 'O' ::
      'F' :: 'F' :: '=' :: (intChars p ++ ';' :: 'D' :: 'U' :: 'R' :: '=' :: fmt3 0)) := by
    rw [tokenChars]
    dsimp only
    rw [serPitches_singleton, serPitches_empty]
  have hf1 : tokenFields (tokenChars ⟨{p}, ∅, s1⟩) = some (intChars p, ['_'], fmt3 s1) := by
    rw [hser1]
    exact tokenFields_chars _ _ _ (intChars_not_semi hp) (intChars_not_eq hp)
      (by decide) (by decide) (fmt3_not_semi hs1nn) (fmt3_not_eq hs1nn)
  have hf2 : tokenFields (tokenChars ⟨{p}, ∅, s2⟩) = some (intChars p, ['_'], fmt3 s2) := by
    rw [hser2]
    exact tokenFields_chars _ _ _ (intChars_not_semi hp) (intChars_not_eq hp)
      (by decide) (by decide) (fmt3_not_semi hs2nn) (fmt3_not_eq hs2nn)
  have hf3 : tokenFields (tokenChars ⟨∅, {p}, 0⟩) = some (['_'], intChars p, fmt3 0) := by
    rw [hser3]
    exact tokenFields_chars _ _ _ (by decide) (by decide)
      (intChars_not_semi hp) (intChars_not_eq hp)
      (fmt3_not_semi (le_refl 0)) (fmt3_not_eq (le_refl 0))
  have hd1 : pyFloat (fmt3 s1) = some s1 := pyFloat_fmt3 hs1nn hk1
  have hd2 : pyFloat (fmt3 s2) = some s2 := pyFloat_fmt3 hs2nn hk2
  have hd3 : pyFloat (fmt3 0) = some 0 := pyFloat_fmt3 (le_refl 0) (k := 0) (by norm_num)
  have hneq : intChars p ≠ ['_'] := intChars_ne_underscore hp
  have hPL : parsePitchList (intChars p) = some [p] := parsePitchList_intChars hp
  have hstep1 : decodeStep ⟨0, [], []⟩ (tokenChars ⟨{p}, ∅, s1⟩)
      = ⟨0 + s1, [(p, some 0)], []⟩ := by
    rw [decodeStep_eq_off_sentinel _ hf1 hd1 rfl]
    rw [applyOnPhase_eq_some _ _ hneq hPL]
    have hap : ([p]).foldl applyOn (⟨0, [], []⟩ : DecState) = ⟨0, [(p, some 0)], []⟩ := by
      simp [applyOn, getStart, setStart]
    rw [hap]
  have hstep2 : decodeStep ⟨0 + s1, [(p, some 0)], []⟩ (tokenChars ⟨{p}, ∅, s2⟩)
      = ⟨0 + s1 + s2, [(p, some s1)], [(p, 0, min s1 8)]⟩ := by
    rw [decodeStep_eq_off_sentinel _ hf2 hd2 rfl]
    rw [applyOnPhase_eq_some _ _ hneq hPL]
    have hap : ([p]).foldl applyOn (⟨0 + s1, [(p, some 0)], []⟩ : DecState)
        = ⟨0 + s1, [(p, some s1)], [(p, 0, min s1 8)]⟩ := by
      simp [applyOn, getStart, setStart, h1]
    rw [hap]
  have hstep3 : decodeStep ⟨0 + s1 + s2, [(p, some s1)], [(p, 0, min s1 8)]⟩
      (tokenChars ⟨∅, {p}, 0⟩)
      = ⟨0 + s1 + s2 + 0, [(p, none)], [(p, 0, min s1 8), (p, s1, min s2 8)]⟩ := by
    rw [decodeStep_eq_off_some _ hf3 hd3 hneq hPL]
    have hao : ([p]).foldl applyOff (⟨0 + s1 + s2, [(p, some s1)], [(p, 0, min s1 8)]⟩ : DecState)
        = ⟨0 + s1 + s2, [(p, none)], [(p, 0, min s1 8), (p, s1, min s2 8)]⟩ := by
      simp [applyOff, getStart, setStart, h2]
    rw [hao, applyOnPhase_eq_sentinel _ _ rfl]
  have hfold : ([tokenChars ⟨{p}, ∅, s1⟩, tokenChars ⟨{p}, ∅, s2⟩,
      tokenChars ⟨∅, {p}, 0⟩]).foldl decodeStep ⟨0, [], []⟩
      = ⟨0 + s1 + s2 + 0, [(p, none)], [(p, 0, min s1 8), (p, s1, min s2 8)]⟩ := by
    rw [List.foldl_cons, hstep1, List.foldl_cons, hstep2, List.foldl_cons, hstep3,
      List.foldl_nil]
  rw [tokens_to_midi, hfold]
  have hfl : flushNotes ⟨0 + s1 + s2 + 0, [(p, none)],
      [(p, 0, min s1 8), (p, s1, min s2 8)]⟩ = [] := by
    simp [flushNotes]
  rw [hfl, List.append_nil]
  simp [sortByStart, insertByStart, hs1nn]

/-- Claim C1. Re-attack rule: two single-pitch events with the same pitch,
the first ending exactly when the second starts, encode as one ON token at
the shared instant (the OFF field there is empty - no spurious OFF/ON pair)
followed later by one OFF, and the decoder maps the serialized sequence back
to two separate closed intervals, closing the open instance at the re-attack
ON before reopening it. -/
theorem reattack_rule (t0 d1 d2 : ℚ) (p : ℤ)
    (hp0 : 0 ≤ p) (hp127 : p ≤ 127)
    (hs1 : 0 < snap_to_grid d1) (hs2 : 0 < snap_to_grid d2) :
    _generate_tokens_from_events [⟨t0, d1, [p]⟩, ⟨t0 + d1, d2, [p]⟩] 0
        = [⟨{p}, ∅, snap_to_grid d1⟩, ⟨{p}, ∅, snap_to_grid d2⟩, ⟨∅, {p}, 0⟩] ∧
      tokens_to_midi ((_generate_tokens_from_events [⟨t0, d1, [p]⟩, ⟨t0 + d1, d2, [p]⟩] 0).map
          tokenChars)
        = [(p, 0, min (snap_to_grid d1) 8), (p, snap_to_grid d1, min (snap_to_grid d2) 8)] := by
  have hgen := generate_reattack_eval t0 d1 d2 p hp0 hp127 hs1 hs2
  refine ⟨hgen, ?_⟩
  rw [hgen]
  rw [List.map_cons, List.map_cons, List.map_cons, List.map_nil]
  exact decode_reattack_eval p _ _ hp0 hs1 hs2 (snap_thousand d1) (snap_thousand d2)

/-- Concrete instantiation of the re-attack rule at pitch 60 with two
one-beat events. -/
theorem reattack_rule_witness :
    (0 : ℚ) < snap_to_grid 1 ∧
      (_generate_tokens_from_events [⟨0, 1, [60]⟩, ⟨0 + 1, 1, [60]⟩] 0
          = [⟨{60}, ∅, snap_to_grid 1⟩, ⟨{60}, ∅, snap_to_grid 1⟩, ⟨∅, {60}, 0⟩] ∧
        tokens_to_midi ((_generate_tokens_from_events [⟨0, 1, [60]⟩, ⟨0 + 1, 1, [60]⟩] 0).map
            tokenChars)
          = [(60, 0, min (snap_to_grid 1) 8), (60, snap_to_grid 1, min (snap_to_grid 1) 8)]) := by
  have hs : (0 : ℚ) < snap_to_grid 1 := by with_unfolding_all decide
  exact ⟨hs, reattack_rule 0 1 1 60 (by norm_num) (by norm_num) hs hs⟩
